import Mathlib

/-!
Verification of the NFT metadata extraction pipeline (`main.py` and
`nft_extractor.py` of the Poke-Extractor repository).

The embedding models Python values flowing through the pipeline as the
inductive type `PyVal` (JSON-like data: strings, integers, booleans,
`None`, lists and string-keyed dicts).  Dicts are association lists; a
raw asset (the input of `flatten_metadata`) is one such association
list.  Python attribute access `d.get(k, default)` on a value that may
not be a dict can raise `AttributeError`; fallible steps therefore
live in `Except String`.  Character classes of the regexes are modelled
on their ASCII fragment, which is the fragment the programs exercise.
Strings are worked with as `List Char` (`Str`).
-/

abbrev Str := List Char

/-- JSON-like Python values handled by the pipeline. -/
inductive PyVal where
  | str (s : Str)
  | int (n : Int)
  | bool (b : Bool)
  | none
  | list (xs : List PyVal)
  | dict (kvs : List (Str × PyVal))

instance : Inhabited PyVal := ⟨PyVal.none⟩

/-- A raw asset as consumed by the pipeline: a string-keyed mapping. -/
abbrev RawAsset := List (Str × PyVal)

/-- A flattened row: field name to value, Python-dict insertion semantics. -/
abbrev FlatRow := List (Str × PyVal)

/-! ## Character classes and sanitization (`re.sub(r'[^\w\s-]', '', s).strip().replace(' ', '_')`) -/

/-- ASCII fragment of the regex class `\w`. -/
def isWordChar (c : Char) : Bool := c.isAlphanum || c = '_'

/-- ASCII fragment of the regex class `\s` (Python whitespace). -/
def isSpaceChar (c : Char) : Bool :=
  c = ' ' || c = '\t' || c = '\n' || c = '\r' || c = '\x0b' || c = '\x0c'

/-- Characters kept by `re.sub(r'[^\w\s-]', '', s)`. -/
def keepChar (c : Char) : Bool := isWordChar c || isSpaceChar c || c = '-'

/-- Python `str.strip()`: drop leading and trailing whitespace. -/
def pyStrip (l : Str) : Str :=
  ((l.dropWhile isSpaceChar).reverse.dropWhile isSpaceChar).reverse

/-- Python `str.replace(' ', '_')`: every space becomes an underscore. -/
def replaceSpace (l : Str) : Str :=
  l.map (fun c => if c = ' ' then '_' else c)

/-- The trait/key sanitizer of `flatten_metadata`
(`re.sub(r'[^\w\s-]', '', str(x)).strip().replace(' ', '_')`). -/
def sanitize (l : Str) : Str := replaceSpace (pyStrip (l.filter keepChar))

/-! ## Decimal rendering of numbers (model of Python `str` on `int`). -/

/-- The decimal digit character for `d < 10`. -/
def digitChar (d : Nat) : Char := Char.ofNat (48 + d)

/-- Accumulator loop producing base-10 digits, most significant first. -/
def natToCharsAux : Nat → Nat → Str → Str
  | 0, _, acc => acc
  | f + 1, n, acc =>
    if n < 10 then digitChar n :: acc
    else natToCharsAux f (n / 10) (digitChar (n % 10) :: acc)

/-- Decimal rendering of a natural number. -/
def natToChars (n : Nat) : Str := natToCharsAux (n + 1) n []

/-- Decimal rendering of an integer, matching Python `str` on `int`. -/
def intToChars (n : Int) : Str :=
  if n < 0 then '-' :: natToChars n.natAbs else natToChars n.toNat

/-! ## Textual renderings: Python `str()`/`repr()` and `json.dumps`. -/

mutual

/-- Model of Python `repr` on JSON-like values (naive quoting, which is
exact on the quote-free strings the pipeline manipulates). -/
def pyReprChars : PyVal → Str
  | .str s => '\'' :: s ++ ['\'']
  | .int n => intToChars n
  | .bool true => "True".data
  | .bool false => "False".data
  | .none => "None".data
  | .list xs => '[' :: pyReprList xs ++ [']']
  | .dict kvs => '\x7b' :: pyReprKVs kvs ++ ['\x7d']

/-- Comma-separated reprs of list elements. -/
def pyReprList : List PyVal → Str
  | [] => []
  | [x] => pyReprChars x
  | x :: xs => pyReprChars x ++ ", ".data ++ pyReprList xs

/-- Comma-separated reprs of dict entries. -/
def pyReprKVs : List (Str × PyVal) → Str
  | [] => []
  | [(k, v)] => '\'' :: k ++ '\'' :: ": ".data ++ pyReprChars v
  | (k, v) :: kvs => ('\'' :: k ++ '\'' :: ": ".data ++ pyReprChars v) ++ ", ".data ++ pyReprKVs kvs

end

/-- Model of Python `str()` on JSON-like values. -/
def pyStrChars : PyVal → Str
  | .str s => s
  | .int n => intToChars n
  | .bool true => "True".data
  | .bool false => "False".data
  | .none => "None".data
  | .list xs => pyReprChars (.list xs)
  | .dict kvs => pyReprChars (.dict kvs)

mutual

/-- Model of `json.dumps` with default separators (`", "` and `": "`). -/
def jsonDumps : PyVal → Str
  | .str s => '"' :: s ++ ['"']
  | .int n => intToChars n
  | .bool true => "true".data
  | .bool false => "false".data
  | .none => "null".data
  | .list xs => '[' :: jsonDumpsList xs ++ [']']
  | .dict kvs => '\x7b' :: jsonDumpsKVs kvs ++ ['\x7d']

/-- Comma-separated serializations of list elements. -/
def jsonDumpsList : List PyVal → Str
  | [] => []
  | [x] => jsonDumps x
  | x :: xs => jsonDumps x ++ ", ".data ++ jsonDumpsList xs

/-- Comma-separated serializations of dict entries. -/
def jsonDumpsKVs : List (Str × PyVal) → Str
  | [] => []
  | [(k, v)] => '"' :: k ++ '"' :: ": ".data ++ jsonDumps v
  | (k, v) :: kvs => ('"' :: k ++ '"' :: ": ".data ++ jsonDumps v) ++ ", ".data ++ jsonDumpsKVs kvs

end

/-! ## Dictionary operations. -/

/-- First-occurrence lookup in an association list (Python dict access). -/
def alookup (k : Str) : List (Str × PyVal) → Option PyVal
  | [] => Option.none
  | (k', v) :: rest => if k = k' then some v else alookup k rest

/-- Python `d.get(k, default)` on an association list known to be a dict. -/
def dget (kvs : List (Str × PyVal)) (k : Str) (d : PyVal) : PyVal :=
  (alookup k kvs).getD d

/-- Python `d.get(k, default)` on an arbitrary value: raises
`AttributeError` unless the value is a dict. -/
def getAttr (v : PyVal) (k : Str) (d : PyVal) : Except String PyVal :=
  match v with
  | .dict kvs => .ok (dget kvs k d)
  | _ => .error "AttributeError"

/-- Total accessor used on the specification side of statements:
`get` with a default that also covers the non-dict case. -/
def pyGetD (v : PyVal) (k : Str) (d : PyVal) : PyVal :=
  match v with
  | .dict kvs => dget kvs k d
  | _ => d

/-- Python dict assignment `d[k] = v`: replace the value in place if the
key is present (keys are unique in a dict), otherwise append the binding. -/
def dinsert : FlatRow → Str → PyVal → FlatRow
  | [], k, v => [(k, v)]
  | (k', v') :: rest, k, v =>
    if k' = k then (k', v) :: rest else (k', v') :: dinsert rest k v

/-- Python truthiness of a JSON-like value. -/
def pyTruthy : PyVal → Bool
  | .str s => !s.isEmpty
  | .int n => n != 0
  | .bool b => b
  | .none => false
  | .list xs => !xs.isEmpty
  | .dict kvs => !kvs.isEmpty

/-! ## `flatten_metadata` (identical in `main.py` and `nft_extractor.py`). -/

/-- Fixed metadata keys consumed before the residual-metadata loop. -/
def consumedKeys : List Str :=
  ["name".data, "symbol".data, "description".data, "image".data,
   "animation_url".data, "external_url".data, "attributes".data]

/-- Value serialization of the residual-metadata loop:
`json.dumps(value) if isinstance(value, (dict, list)) else str(value)`. -/
def serializeV : PyVal → PyVal
  | .dict kvs => .str (jsonDumps (.dict kvs))
  | .list xs => .str (jsonDumps (.list xs))
  | v => .str (pyStrChars v)

/-- The attribute-expansion loop of `flatten_metadata`: for each dict entry,
`trait_type = attr.get('trait_type', f'attribute_{i}')`,
`value = attr.get('value', '')`, and the column
`trait_<sanitized trait_type>` is assigned `value`.  Never raises. -/
def processAttrs (f : FlatRow) (i : Nat) : List PyVal → FlatRow
  | [] => f
  | a :: rest =>
    match a with
    | .dict akvs =>
      let tt := dget akvs "trait_type".data (.str ("attribute_".data ++ natToChars i))
      let v := dget akvs "value".data (.str [])
      processAttrs (dinsert f ("trait_".data ++ sanitize (pyStrChars tt)) v) (i + 1) rest
    | _ => processAttrs f (i + 1) rest

/-- Python `x == 'collection'` for a JSON-like `x`. -/
def isCollection : PyVal → Bool
  | .str s => decide (s = "collection".data)
  | _ => false

/-- The grouping loop of `flatten_metadata`: find the first entry whose
`group_key` is `'collection'`, assign `collection_address`, and `break`.
Raises `AttributeError` when it reaches a non-dict entry. -/
def processGroupingE (f : FlatRow) : List PyVal → Except String FlatRow
  | [] => .ok f
  | g :: gs =>
    match g with
    | .dict gkvs =>
      if isCollection (dget gkvs "group_key".data .none) then
        .ok (dinsert f "collection_address".data (dget gkvs "group_value".data (.str [])))
      else processGroupingE f gs
    | _ => .error "AttributeError"

/-- Total counterpart of `processGroupingE`, used to state facts under
well-formedness (where every grouping entry is a dict). -/
def processGroupingCore (f : FlatRow) : List PyVal → FlatRow
  | [] => f
  | g :: gs =>
    match g with
    | .dict gkvs =>
      if isCollection (dget gkvs "group_key".data .none) then
        dinsert f "collection_address".data (dget gkvs "group_value".data (.str []))
      else processGroupingCore f gs
    | _ => processGroupingCore f gs

/-- Python iteration `for x in v`: lists yield elements, strings yield
one-character strings, dicts yield their keys; numbers raise `TypeError`. -/
def pyIter : PyVal → Except String (List PyVal)
  | .list xs => .ok xs
  | .str s => .ok (s.map (fun c => .str [c]))
  | .dict kvs => .ok (kvs.map (fun e => .str e.1))
  | _ => .error "TypeError"

/-- The value of a dict, raising like `.items()` on a non-dict would. -/
def dictItems : PyVal → Except String (List (Str × PyVal))
  | .dict kvs => .ok kvs
  | _ => .error "AttributeError"

/-- The residual-metadata loop of `flatten_metadata`: every metadata entry
whose key is not consumed becomes column `metadata_<sanitized key>` holding
its serialized value.  Never raises. -/
def processResidual (f : FlatRow) : List (Str × PyVal) → FlatRow
  | [] => f
  | (k, v) :: rest =>
    if consumedKeys.contains k then processResidual f rest
    else processResidual (dinsert f ("metadata_".data ++ sanitize k) (serializeV v)) rest

/-- The `isinstance(attributes, list)` guard around the attribute loop. -/
def attrStage (f : FlatRow) (x : PyVal) : FlatRow :=
  match x with
  | .list attrs => processAttrs f 0 attrs
  | _ => f

/-- The grouping loop under well-formedness (`grouping` a list of dicts). -/
def groupStage (f : FlatRow) (x : PyVal) : FlatRow :=
  match x with
  | .list gs => processGroupingCore f gs
  | _ => f

/-- The residual-metadata loop over a metadata object known to be a dict. -/
def residualStage (f : FlatRow) (x : PyVal) : FlatRow :=
  match x with
  | .dict mkvs => processResidual f mkvs
  | _ => f

/-- `NFTMetadataExtractor.flatten_metadata` (lines 66-104 of `main.py`,
identically lines 45-83 of `nft_extractor.py`), as a fallible function:
`d.get(...)` on a non-dict nested value raises `AttributeError`, iterating
a number raises `TypeError`. -/
def flatten_metadata (nft : RawAsset) : Except String FlatRow := do
  let f := dinsert [] "mint_address".data (dget nft "id".data (.str []))
  let ownership := dget nft "ownership".data (.dict [])
  let ownerV ← getAttr ownership "owner".data (.str [])
  let f := dinsert f "owner".data ownerV
  let frozenV ← getAttr ownership "frozen".data (.bool false)
  let f := dinsert f "frozen".data frozenV
  let delegatedV ← getAttr ownership "delegated".data (.bool false)
  let f := dinsert f "delegated".data delegatedV
  let content := dget nft "content".data (.dict [])
  let metadata ← getAttr content "metadata".data (.dict [])
  let nameV ← getAttr metadata "name".data (.str [])
  let f := dinsert f "name".data nameV
  let symbolV ← getAttr metadata "symbol".data (.str [])
  let f := dinsert f "symbol".data symbolV
  let descriptionV ← getAttr metadata "description".data (.str [])
  let f := dinsert f "description".data descriptionV
  let imageV ← getAttr metadata "image".data (.str [])
  let f := dinsert f "image".data imageV
  let animationV ← getAttr metadata "animation_url".data (.str [])
  let f := dinsert f "animation_url".data animationV
  let externalV ← getAttr metadata "external_url".data (.str [])
  let f := dinsert f "external_url".data externalV
  let attributes ← getAttr metadata "attributes".data (.list [])
  let f := attrStage f attributes
  let grouping := dget nft "grouping".data (.list [])
  let gitems ← pyIter grouping
  let f ← processGroupingE f gitems
  let royalty := dget nft "royalty".data (.dict [])
  let percentV ← getAttr royalty "percent".data (.int 0)
  let f := dinsert f "royalty_percent".data percentV
  let lockedV ← getAttr royalty "locked".data (.bool false)
  let f := dinsert f "royalty_locked".data lockedV
  let supply := dget nft "supply".data (.dict [])
  let maxV ← getAttr supply "print_max_supply".data (.int 0)
  let f := dinsert f "supply_print_max_supply".data maxV
  let curV ← getAttr supply "print_current_supply".data (.int 0)
  let f := dinsert f "supply_print_current_supply".data curV
  let nonceV ← getAttr supply "edition_nonce".data (.str [])
  let f := dinsert f "supply_edition_nonce".data nonceV
  let mitems ← dictItems metadata
  return processResidual f mitems

/-- The `content` value of a raw asset (`nft.get('content', {})`). -/
def contentOf (nft : RawAsset) : PyVal := dget nft "content".data (.dict [])

/-- The metadata object of a raw asset (`content.get('metadata', {})`),
total form used for statements. -/
def metadataOf (nft : RawAsset) : PyVal :=
  pyGetD (contentOf nft) "metadata".data (.dict [])

/-- Is the value a dict? -/
def isDictB : PyVal → Bool
  | .dict _ => true
  | _ => false

/-- Well-formedness of a raw asset for `flatten_metadata`: the consulted
nested objects are dicts when present (their absence is fine: the code
substitutes `{}`), and `grouping` is a list of dicts.  On such inputs the
Python code cannot raise. -/
def wfFlatten (nft : RawAsset) : Bool :=
  isDictB (dget nft "ownership".data (.dict [])) &&
  isDictB (contentOf nft) &&
  isDictB (metadataOf nft) &&
  isDictB (dget nft "royalty".data (.dict [])) &&
  isDictB (dget nft "supply".data (.dict [])) &&
  (match dget nft "grouping".data (.list []) with
   | .list gs => gs.all isDictB
   | _ => false)

/-- The ten unconditional fields of a flattened row, in assignment order. -/
def fixedFields (nft : RawAsset) : FlatRow :=
  let f := dinsert [] "mint_address".data (dget nft "id".data (.str []))
  let ownership := dget nft "ownership".data (.dict [])
  let f := dinsert f "owner".data (pyGetD ownership "owner".data (.str []))
  let f := dinsert f "frozen".data (pyGetD ownership "frozen".data (.bool false))
  let f := dinsert f "delegated".data (pyGetD ownership "delegated".data (.bool false))
  let metadata := metadataOf nft
  let f := dinsert f "name".data (pyGetD metadata "name".data (.str []))
  let f := dinsert f "symbol".data (pyGetD metadata "symbol".data (.str []))
  let f := dinsert f "description".data (pyGetD metadata "description".data (.str []))
  let f := dinsert f "image".data (pyGetD metadata "image".data (.str []))
  let f := dinsert f "animation_url".data (pyGetD metadata "animation_url".data (.str []))
  dinsert f "external_url".data (pyGetD metadata "external_url".data (.str []))

/-- Total counterpart of `flatten_metadata`, agreeing with it on every
well-formed raw asset (proved below).  Missing or malformed lookups take
the documented defaults. -/
def flattenCore (nft : RawAsset) : FlatRow :=
  let f := attrStage (fixedFields nft) (pyGetD (metadataOf nft) "attributes".data (.list []))
  let f := groupStage f (dget nft "grouping".data (.list []))
  let royalty := dget nft "royalty".data (.dict [])
  let f := dinsert f "royalty_percent".data (pyGetD royalty "percent".data (.int 0))
  let f := dinsert f "royalty_locked".data (pyGetD royalty "locked".data (.bool false))
  let supply := dget nft "supply".data (.dict [])
  let f := dinsert f "supply_print_max_supply".data (pyGetD supply "print_max_supply".data (.int 0))
  let f := dinsert f "supply_print_current_supply".data (pyGetD supply "print_current_supply".data (.int 0))
  let f := dinsert f "supply_edition_nonce".data (pyGetD supply "edition_nonce".data (.str []))
  residualStage f (metadataOf nft)

/-! ## `filter_nfts_by_year` (both variants). -/

/-- The anchored year regular pattern `^(199[0-9]|20[01][0-9]|202[0-5])`,
compared on code points (`'1'` is 49, `'2'` is 50, `'9'` is 57, `'0'` is 48,
`'5'` is 53): true iff the first four characters fit one alternative. -/
def matchesYear : Str → Bool
  | a :: b :: c :: d :: _ =>
    decide ((a.toNat = 49 ∧ b.toNat = 57 ∧ c.toNat = 57 ∧ 48 ≤ d.toNat ∧ d.toNat ≤ 57) ∨
            (a.toNat = 50 ∧ b.toNat = 48 ∧ (c.toNat = 48 ∨ c.toNat = 49) ∧ 48 ≤ d.toNat ∧ d.toNat ≤ 57) ∨
            (a.toNat = 50 ∧ b.toNat = 48 ∧ c.toNat = 50 ∧ 48 ≤ d.toNat ∧ d.toNat ≤ 53))
  | _ => false

/-- Name resolution of `filter_nfts_by_year` in `main.py` (line 61):
`nft.get('content', {}).get('metadata', {}).get('name') or
nft.get('content', {}).get('name') or nft.get('name', '')`. -/
def resolveNameMain (nft : RawAsset) : Except String PyVal := do
  let content := dget nft "content".data (.dict [])
  let md ← getAttr content "metadata".data (.dict [])
  let n1 ← getAttr md "name".data .none
  if pyTruthy n1 then pure n1
  else do
    let n2 ← getAttr content "name".data .none
    if pyTruthy n2 then pure n2
    else pure (dget nft "name".data (.str []))

/-- `NFTMetadataExtractor.filter_nfts_by_year` of `main.py` (lines 57-64). -/
def filter_nfts_by_year_main : List RawAsset → Except String (List RawAsset)
  | [] => .ok []
  | nft :: rest => do
    let name ← resolveNameMain nft
    let frest ← filter_nfts_by_year_main rest
    return (if pyTruthy name && matchesYear (pyStrChars name) then nft :: frest else frest)

/-- `startsWithL needle hay`: is `needle` a leading run of `hay`? -/
def startsWithL : Str → Str → Bool
  | [], _ => true
  | _ :: _, [] => false
  | a :: as, b :: bs => decide (a = b) && startsWithL as bs

/-- Substring test used by Python `needle in hay` on strings. -/
def hasSubL (needle : Str) : Str → Bool
  | [] => needle.isEmpty
  | c :: rest => startsWithL needle (c :: rest) || hasSubL needle rest

/-- Python `x == k` for a string constant `k`. -/
def pyEqStr (v : PyVal) (k : Str) : Bool :=
  match v with
  | .str s => decide (s = k)
  | _ => false

/-- Python `k in v`: key membership for dicts, substring for strings,
element equality for lists; `TypeError` on numbers. -/
def pyContains (v : PyVal) (k : Str) : Except String Bool :=
  match v with
  | .dict kvs => .ok (alookup k kvs).isSome
  | .str s => .ok (hasSubL k s)
  | .list xs => .ok (xs.any (fun x => pyEqStr x k))
  | _ => .error "TypeError"

/-- Python subscription `v[k]`: `KeyError` when the key is missing,
`TypeError` on non-dicts. -/
def pySubscript (v : PyVal) (k : Str) : Except String PyVal :=
  match v with
  | .dict kvs =>
    match alookup k kvs with
    | some x => .ok x
    | Option.none => .error "KeyError"
  | _ => .error "TypeError"

/-- Name resolution of `filter_nfts_by_year` in `nft_extractor.py`
(lines 33-40), with the extra `title` fallback. -/
def resolveNameExt (nft : RawAsset) : Except String PyVal := do
  let hasC := (alookup "content".data nft).isSome
  let name1 ← (if hasC then do
      let cv := dget nft "content".data .none
      let b ← pyContains cv "metadata".data
      if b then do
        let md ← pySubscript cv "metadata".data
        let n1 ← getAttr md "name".data .none
        if pyTruthy n1 then pure n1
        else getAttr md "title".data (.str [])
      else pure (.str [])
    else pure (PyVal.str []))
  let name2 ← (if !pyTruthy name1 && hasC then
      getAttr (dget nft "content".data .none) "name".data (.str [])
    else pure name1)
  return (if !pyTruthy name2 then dget nft "name".data (.str []) else name2)

/-- `NFTMetadataExtractor.filter_nfts_by_year` of `nft_extractor.py`
(lines 29-43). -/
def filter_nfts_by_year_ext : List RawAsset → Except String (List RawAsset)
  | [] => .ok []
  | nft :: rest => do
    let name ← resolveNameExt nft
    let frest ← filter_nfts_by_year_ext rest
    return (if pyTruthy name && matchesYear (pyStrChars name) then nft :: frest else frest)

/-! ## CSV export (`export_to_csv`, lines 106-126 of `main.py`). -/

/-- The text a `csv` writer emits for one value: `str()`, except that
`None` is written as the empty string. -/
def fieldText : PyVal → Str
  | .none => []
  | v => pyStrChars v

/-- Add a key to the running set of field names, preserving first-seen
order and uniqueness (model of `set.update`). -/
def insertKey (acc : List Str) (k : Str) : List Str :=
  if k ∈ acc then acc else acc ++ [k]

/-- All keys of a row, in insertion order. -/
def rowKeys (r : FlatRow) : List Str := r.map Prod.fst

/-- The union of all field names across the rows
(`all_fields.update(flattened.keys())`). -/
def allFields (rows : List FlatRow) : List Str :=
  rows.foldl (fun acc r => (rowKeys r).foldl insertKey acc) []

/-- Python string comparison: lexicographic on code points. -/
def strLeB : Str → Str → Bool
  | [], _ => true
  | _ :: _, [] => false
  | a :: as, b :: bs =>
    if a.toNat < b.toNat then true
    else if b.toNat < a.toNat then false
    else strLeB as bs

/-- `fieldnames = sorted(all_fields)`. -/
def fieldnames (rows : List FlatRow) : List Str :=
  List.insertionSort (fun a b => strLeB a b = true) (allFields rows)

/-- `row = {field: nft.get(field, '') for field in fieldnames}`, then each
value rendered as the `csv` writer would. -/
def projRow (hdr : List Str) (r : FlatRow) : List Str :=
  hdr.map (fun k => fieldText (dget r k (.str [])))

instance : IsTotal Str (fun a b => strLeB a b = true) := ⟨by
  intro a
  induction a with
  | nil => exact fun b => Or.inl rfl
  | cons x xs ih =>
    intro b
    cases b with
    | nil => exact Or.inr rfl
    | cons y ys =>
      rcases Nat.lt_trichotomy x.toNat y.toNat with h | h | h
      · refine Or.inl ?_
        rw [strLeB, if_pos h]
      · rcases ih ys with hy | hy
        · refine Or.inl ?_
          rw [strLeB, if_neg (by omega), if_neg (by omega)]
          exact hy
        · refine Or.inr ?_
          rw [strLeB, if_neg (by omega), if_neg (by omega)]
          exact hy
      · refine Or.inr ?_
        rw [strLeB, if_pos h]⟩

instance : IsTrans Str (fun a b => strLeB a b = true) := ⟨by
  intro a
  induction a with
  | nil => intro b c _ _; rfl
  | cons x xs ih =>
    intro b c hab hbc
    cases b with
    | nil => exact absurd hab (by rw [strLeB]; exact Bool.false_ne_true)
    | cons y ys =>
      cases c with
      | nil => exact absurd hbc (by rw [strLeB]; exact Bool.false_ne_true)
      | cons z zs =>
        rw [strLeB] at hab hbc ⊢
        by_cases h1 : x.toNat < y.toNat
        · by_cases h2 : y.toNat < z.toNat
          · rw [if_pos (by omega)]
          · rw [if_neg h2] at hbc
            by_cases h3 : z.toNat < y.toNat
            · rw [if_pos h3] at hbc
              exact absurd hbc Bool.false_ne_true
            · rw [if_pos (by omega)]
        · rw [if_neg h1] at hab
          by_cases h2 : y.toNat < x.toNat
          · rw [if_pos h2] at hab
            exact absurd hab Bool.false_ne_true
          · rw [if_neg h2] at hab
            by_cases h3 : y.toNat < z.toNat
            · rw [if_pos (by omega)]
            · rw [if_neg h3] at hbc
              by_cases h4 : z.toNat < y.toNat
              · rw [if_pos h4] at hbc
                exact absurd hbc Bool.false_ne_true
              · rw [if_neg h4] at hbc
                rw [if_neg (by omega), if_neg (by omega)]
                exact ih ys zs hab hbc⟩

/-- Does a CSV field need quoting (`QUOTE_MINIMAL`)? -/
def needsQuote (s : Str) : Bool :=
  s.any (fun c => c = ',' || c = '"' || c = '\r' || c = '\n')

/-- Double every quote character (CSV escaping inside a quoted field). -/
def escapeQuotes : Str → Str
  | [] => []
  | c :: r => if c = '"' then '"' :: '"' :: escapeQuotes r else c :: escapeQuotes r

/-- One encoded CSV field. -/
def encodeField (f : Str) : Str :=
  if needsQuote f then '"' :: escapeQuotes f ++ ['"'] else f

/-- Fields of one record joined by commas. -/
def encodeLineRaw : List Str → Str
  | [] => []
  | [f] => encodeField f
  | f :: fs => encodeField f ++ ',' :: encodeLineRaw fs

/-- One encoded CSV record.  As in the `csv` module, a record made of one
single empty field is written `""` so it stays distinguishable from the
blank line of an empty record. -/
def encodeLine (fs : List Str) : Str :=
  if fs = [[]] then ['"', '"'] else encodeLineRaw fs

/-- The encoded CSV file: each record followed by the default `csv`
line terminator `'\r\n'`. -/
def encodeFile : List (List Str) → Str
  | [] => []
  | l :: ls => encodeLine l ++ '\r' :: '\n' :: encodeFile ls

/-- The full CSV text `export_to_csv` writes for the given flattened rows:
header (sorted union of keys), then one projected record per row. -/
def csvText (rows : List FlatRow) : Str :=
  encodeFile (fieldnames rows :: rows.map (projRow (fieldnames rows)))

/-- `NFTMetadataExtractor.export_to_csv` (lines 106-126 of `main.py`,
identically lines 85-105 of `nft_extractor.py`).  The wall-clock timestamp
of the default filename is a parameter; the result is `none` (the
"nothing to export" signal, after a UI warning) or the written file's
name and content. -/
def export_to_csv (nfts : List RawAsset) (filename : Option Str) (ts : Str) :
    Except String (Option (Str × Str)) :=
  if nfts.isEmpty then .ok Option.none
  else do
    let fn := filename.getD ("nft_metadata_".data ++ ts ++ ".csv".data)
    let rows ← nfts.mapM flatten_metadata
    return some (fn, csvText rows)

/-! ## A CSV reader (model of `csv.reader` on the produced dialect). -/

/-- Scan an unquoted field: stops before `','`, `'\r'` or `'\n'`. -/
def scanUnquoted : Str → Str × Str
  | [] => ([], [])
  | c :: rest =>
    if c = ',' ∨ c = '\r' ∨ c = '\n' then ([], c :: rest)
    else
      let p := scanUnquoted rest
      (c :: p.1, p.2)

/-- Scan the body of a quoted field (after the opening quote): a doubled
quote is a literal quote, a single one closes the field. -/
def scanQuoted : Str → Str × Str
  | [] => ([], [])
  | c :: rest =>
    if c = '"' then
      match rest with
      | c2 :: rest2 =>
        if c2 = '"' then
          let p := scanQuoted rest2
          ('"' :: p.1, p.2)
        else ([], rest)
      | [] => ([], [])
    else
      let p := scanQuoted rest
      (c :: p.1, p.2)

/-- Parse one CSV field, returning it and the rest of the input
(starting at the delimiter that ended the field). -/
def parseField : Str → Str × Str
  | [] => ([], [])
  | c :: rest => if c = '"' then scanQuoted rest else scanUnquoted (c :: rest)

/-- Parse one CSV record (fuel bounds the number of fields); consumes the
record's line terminator. -/
def parseRecordF : Nat → Str → List Str × Str
  | 0, _ => ([], [])
  | fl + 1, l =>
    let p := parseField l
    match p.2 with
    | [] => ([p.1], [])
    | c :: cs =>
      if c = ',' then
        let q := parseRecordF fl cs
        (p.1 :: q.1, q.2)
      else if c = '\r' then
        if cs.head? = some '\n' then ([p.1], cs.tail) else ([p.1], cs)
      else ([p.1], cs)

/-- Parse a CSV file into records (fuel bounds the number of records).
A completely blank line is the empty record, as in `csv.reader`. -/
def parseFileF : Nat → Str → List (List Str)
  | 0, _ => []
  | fl + 1, l =>
    match l with
    | [] => []
    | c :: cs =>
      if c = '\r' ∧ cs.head? = some '\n' then [] :: parseFileF fl cs.tail
      else
        let q := parseRecordF (c :: cs).length (c :: cs)
        q.1 :: parseFileF fl q.2

/-- Parse a CSV text into its records. -/
def parseCsv (l : Str) : List (List Str) := parseFileF (l.length + 1) l

/-! ## Specification-side reference definitions. -/

/-- Run-collapsing loop: a maximal run of whitespace becomes one
underscore (`prevSpace` records whether a run is already open). -/
def collapseWsAux (prevSpace : Bool) : Str → Str
  | [] => []
  | c :: r =>
    if isSpaceChar c then
      if prevSpace then collapseWsAux true r else '_' :: collapseWsAux true r
    else c :: collapseWsAux false r

/-- Modelled from the spec: replace each internal run of whitespace with
one single underscore. -/
def collapseWs (l : Str) : Str := collapseWsAux false l

/-- Modelled from the spec: the full reference sanitizer of the claim
(runs of whitespace become a single underscore). -/
def refSanitize (l : Str) : Str := collapseWs (pyStrip (l.filter keepChar))

/-- The amended per-space replacement, written in the same recursive style
as the reference sanitizer: each single space becomes one underscore, all
other characters (including tabs and newlines) are kept. -/
def collapseEachSpace : Str → Str
  | [] => []
  | c :: r => if c = ' ' then '_' :: collapseEachSpace r else c :: collapseEachSpace r

/-- First truthy element of a candidate list; with no truthy candidate the
last one is returned (the value of a Python `or` chain). -/
def firstTruthy : List PyVal → PyVal
  | [] => .str []
  | [v] => v
  | v :: rest => if pyTruthy v then v else firstTruthy rest

/-- The name candidates of the `main.py` resolution order. -/
def specCandidatesMain (nft : RawAsset) : List PyVal :=
  [pyGetD (metadataOf nft) "name".data .none,
   pyGetD (contentOf nft) "name".data .none,
   dget nft "name".data (.str [])]

/-- The name candidates of the `nft_extractor.py` resolution order
(with the `title` fallback). -/
def specCandidatesExt (nft : RawAsset) : List PyVal :=
  [pyGetD (metadataOf nft) "name".data .none,
   pyGetD (metadataOf nft) "title".data (.str []),
   pyGetD (contentOf nft) "name".data (.str []),
   dget nft "name".data (.str [])]

/-- Well-formedness for name resolution: `content` is a dict when present,
and so is its `metadata` entry.  On such assets neither resolution order
can raise. -/
def wfName (nft : RawAsset) : Bool :=
  match dget nft "content".data (.dict []) with
  | .dict ckvs =>
    match dget ckvs "metadata".data (.dict []) with
    | .dict _ => true
    | _ => false
  | _ => false

/-- The numeric value of four digit characters read as a decimal year. -/
def yearVal (a b c d : Char) : Nat :=
  1000 * (a.toNat - 48) + 100 * (b.toNat - 48) + 10 * (c.toNat - 48) + (d.toNat - 48)

/-- Is the character an ASCII decimal digit? -/
def isDigitChar (c : Char) : Bool := decide (48 ≤ c.toNat ∧ c.toNat ≤ 57)

/-- The row of a flattening result, empty on error (used to state
counterexamples compactly). -/
def rowOf (e : Except String FlatRow) : FlatRow := e.toOption.getD []

def scn1 : RawAsset :=
  [("id".data, .str "m1".data),
   ("content".data, .dict [("metadata".data, .dict
     [("name".data, .str "1999 Relic".data),
      ("attributes".data, .list [.dict [("trait_type".data, .str "Rarity".data), ("value".data, .str "Rare".data)]])])])]

def scn2 : RawAsset :=
  [("content".data, .dict [("metadata".data, .dict
     [("attributes".data, .list [.dict [], .dict [], .dict [("value".data, .str "v".data)]])])])]

def scn5 : RawAsset :=
  [("content".data, .dict [("metadata".data, .dict
     [("Custom Tag!".data, .dict [("a".data, .int 1)])])])]

def scn7 : RawAsset :=
  [("content".data, .dict [("metadata".data, .dict
     [("a!".data, .str "x".data), ("a".data, .str "y".data)])])]

def wAsset1 : RawAsset :=
  [("id".data, .str "m1".data), ("ownership".data, .dict [("frozen".data, .bool true)])]

def mkNamed (s : String) : RawAsset :=
  [("content".data, .dict [("metadata".data, .dict [("name".data, .str s.data)])])]

/-! ## Association-list laws. -/

/-- The column name the attribute loop derives for one entry at index `i`
(`none` on the non-dict entries it skips). -/
def attrKeyOf (i : Nat) : PyVal → Option Str
  | .dict akvs =>
    some ("trait_".data ++ sanitize (pyStrChars (dget akvs "trait_type".data
      (.str ("attribute_".data ++ natToChars i)))))
  | _ => Option.none

def wList : List RawAsset := [mkNamed "2026 party", mkNamed "1999wow", mkNamed "2025 Edge"]

def wAssetC8a : RawAsset :=
  [("content".data, .dict [("metadata".data, .dict [("title".data, .str "t".data)]),
    ("name".data, .str "c".data)])]

def wAssetC8b : RawAsset := [("other".data, .int 1)]

def wExportAsset : RawAsset := [("id".data, .str "m".data)]

def wExportOut : Str × Str :=
  ((export_to_csv [wExportAsset] Option.none []).toOption.getD Option.none).getD ([], [])

def wRows : List FlatRow :=
  [[("b".data, .str "x,y".data), ("a".data, .int 3)], [("a".data, .bool false)]]

/-- Index of the first occurrence of a key in a header. -/
def idxOf (k : Str) : List Str → Nat
  | [] => 0
  | x :: xs => if x = k then 0 else idxOf k xs + 1

theorem alookup_dinsert (f : FlatRow) (k k' : Str) (v : PyVal) :
    alookup k (dinsert f k' v) = if k = k' then some v else alookup k f := by
  induction f with
  | nil => rfl
  | cons p f ih =>
    obtain ⟨pk, pv⟩ := p
    by_cases hp : pk = k'
    · subst hp
      by_cases hk : k = pk
      · simp only [dinsert, if_pos rfl, alookup, if_pos hk]
      · simp only [dinsert, if_pos rfl, alookup, if_neg hk]
    · by_cases hk : k = pk
      · have hkk : ¬k = k' := fun he => hp (hk.symm.trans he)
        simp only [dinsert, if_neg hp, alookup, if_pos hk, if_neg hkk]
      · simp only [dinsert, if_neg hp, alookup, if_neg hk, ih]

theorem alookup_dinsert_ne (f : FlatRow) (k k' : Str) (v : PyVal) (h : k ≠ k') :
    alookup k (dinsert f k' v) = alookup k f := by
  rw [alookup_dinsert, if_neg h]

theorem alookup_dinsert_self (f : FlatRow) (k : Str) (v : PyVal) :
    alookup k (dinsert f k v) = some v := by
  rw [alookup_dinsert, if_pos rfl]

/-! ## Preservation of early fields through the later loops. -/

theorem alookup_processAttrs_ne (attrs : List PyVal) (i : Nat) (f : FlatRow) (k : Str)
    (h : ∀ s, ¬("trait_".data ++ s = k)) :
    alookup k (processAttrs f i attrs) = alookup k f := by
  induction attrs generalizing i f with
  | nil => rfl
  | cons a attrs ih =>
    cases a with
    | dict akvs =>
      rw [processAttrs, ih, alookup_dinsert_ne]
      exact fun he => h _ he.symm
    | str s => exact ih (i + 1) f
    | int n => exact ih (i + 1) f
    | bool b => exact ih (i + 1) f
    | none => exact ih (i + 1) f
    | list xs => exact ih (i + 1) f

theorem alookup_processGroupingCore_ne (gs : List PyVal) (f : FlatRow) (k : Str)
    (h : k ≠ "collection_address".data) :
    alookup k (processGroupingCore f gs) = alookup k f := by
  induction gs generalizing f with
  | nil => rfl
  | cons g gs ih =>
    cases g with
    | dict gkvs =>
      rw [processGroupingCore]
      by_cases hc : isCollection (dget gkvs "group_key".data .none) = true
      · rw [if_pos hc, alookup_dinsert_ne _ _ _ _ h]
      · rw [if_neg hc, ih]
    | str s => exact ih f
    | int n => exact ih f
    | bool b => exact ih f
    | none => exact ih f
    | list xs => exact ih f

theorem alookup_processResidual_ne (items : List (Str × PyVal)) (f : FlatRow) (k : Str)
    (h : ∀ s, ¬("metadata_".data ++ s = k)) :
    alookup k (processResidual f items) = alookup k f := by
  induction items generalizing f with
  | nil => rfl
  | cons e items ih =>
    obtain ⟨ek, ev⟩ := e
    rw [processResidual]
    by_cases hc : consumedKeys.contains ek = true
    · rw [if_pos hc, ih]
    · rw [if_neg hc, ih, alookup_dinsert_ne]
      exact fun he => h _ he.symm

theorem alookup_attrStage_ne (f : FlatRow) (x : PyVal) (k : Str)
    (h : ∀ s, ¬("trait_".data ++ s = k)) :
    alookup k (attrStage f x) = alookup k f := by
  cases x with
  | list attrs => exact alookup_processAttrs_ne attrs 0 f k h
  | str s => rfl
  | int n => rfl
  | bool b => rfl
  | none => rfl
  | dict kvs => rfl

theorem alookup_groupStage_ne (f : FlatRow) (x : PyVal) (k : Str)
    (h : k ≠ "collection_address".data) :
    alookup k (groupStage f x) = alookup k f := by
  cases x with
  | list gs => exact alookup_processGroupingCore_ne gs f k h
  | str s => rfl
  | int n => rfl
  | bool b => rfl
  | none => rfl
  | dict kvs => rfl

theorem alookup_residualStage_ne (f : FlatRow) (x : PyVal) (k : Str)
    (h : ∀ s, ¬("metadata_".data ++ s = k)) :
    alookup k (residualStage f x) = alookup k f := by
  cases x with
  | dict mkvs => exact alookup_processResidual_ne mkvs f k h
  | str s => rfl
  | int n => rfl
  | bool b => rfl
  | none => rfl
  | list xs => rfl

/-! ## Generic string-prefix disequalities. -/

theorem append_ne_of_head (c1 c2 : Char) (t1 t2 : Str) (hne : c1 ≠ c2) (s : Str) :
    ¬(c1 :: t1 ++ s = c2 :: t2) := by
  intro h
  injection h with h1 _
  exact hne h1

theorem append_ne_of_second (c c1 c2 : Char) (t1 t2 : Str) (hne : c1 ≠ c2) (s : Str) :
    ¬(c :: c1 :: t1 ++ s = c :: c2 :: t2) := by
  intro h
  injection h with _ h2
  injection h2 with h3 _
  exact hne h3

theorem append_append_ne_head (c1 c2 : Char) (t1 t2 : Str) (hne : c1 ≠ c2) (s u : Str) :
    ¬(c1 :: t1 ++ s = c2 :: t2 ++ u) := by
  intro h
  injection h with h1 _
  exact hne h1

/-! ## Agreement of `flatten_metadata` with its total counterpart. -/

theorem isDictB_iff (v : PyVal) : isDictB v = true ↔ ∃ kvs, v = .dict kvs := by
  cases v with
  | dict kvs => exact ⟨fun _ => ⟨kvs, rfl⟩, fun _ => rfl⟩
  | str s => exact ⟨fun h => (Bool.false_ne_true h).elim, fun ⟨kvs, he⟩ => PyVal.noConfusion he⟩
  | int n => exact ⟨fun h => (Bool.false_ne_true h).elim, fun ⟨kvs, he⟩ => PyVal.noConfusion he⟩
  | bool b => exact ⟨fun h => (Bool.false_ne_true h).elim, fun ⟨kvs, he⟩ => PyVal.noConfusion he⟩
  | none => exact ⟨fun h => (Bool.false_ne_true h).elim, fun ⟨kvs, he⟩ => PyVal.noConfusion he⟩
  | list xs => exact ⟨fun h => (Bool.false_ne_true h).elim, fun ⟨kvs, he⟩ => PyVal.noConfusion he⟩

theorem processGroupingE_eq (gs : List PyVal) (f : FlatRow) (h : gs.all isDictB = true) :
    processGroupingE f gs = .ok (processGroupingCore f gs) := by
  induction gs generalizing f with
  | nil => rfl
  | cons g gs ih =>
    simp only [List.all_cons, Bool.and_eq_true] at h
    obtain ⟨gkvs, rfl⟩ := (isDictB_iff g).mp h.1
    rw [processGroupingE, processGroupingCore]
    by_cases hc : isCollection (dget gkvs "group_key".data .none) = true
    · rw [if_pos hc, if_pos hc]
    · rw [if_neg hc, if_neg hc]
      exact ih f h.2

theorem flatten_eq_core (nft : RawAsset) (h : wfFlatten nft = true) :
    flatten_metadata nft = .ok (flattenCore nft) := by
  unfold wfFlatten at h
  simp only [Bool.and_eq_true] at h
  obtain ⟨⟨⟨⟨⟨h1, h2⟩, h3⟩, h4⟩, h5⟩, h6⟩ := h
  obtain ⟨okvs, ho⟩ := (isDictB_iff _).mp h1
  obtain ⟨ckvs, hc⟩ := (isDictB_iff _).mp h2
  obtain ⟨mkvs, hm⟩ := (isDictB_iff _).mp h3
  obtain ⟨rkvs, hr⟩ := (isDictB_iff _).mp h4
  obtain ⟨skvs, hs⟩ := (isDictB_iff _).mp h5
  have h6' : ∃ gs, dget nft "grouping".data (.list []) = .list gs ∧ gs.all isDictB = true := by
    rcases hg : dget nft "grouping".data (.list []) with _ | _ | _ | _ | gs | _ <;> rw [hg] at h6
    · exact (Bool.false_ne_true h6).elim
    · exact (Bool.false_ne_true h6).elim
    · exact (Bool.false_ne_true h6).elim
    · exact (Bool.false_ne_true h6).elim
    · exact ⟨gs, rfl, h6⟩
    · exact (Bool.false_ne_true h6).elim
  obtain ⟨gs, hg, hall⟩ := h6'
  have hc2 : dget nft "content".data (.dict []) = .dict ckvs := hc
  have hm2 : dget ckvs "metadata".data (.dict []) = .dict mkvs := by
    have h' : pyGetD (dget nft "content".data (.dict [])) "metadata".data (.dict []) =
        .dict mkvs := hm
    rw [hc2] at h'
    simpa [pyGetD] using h'
  rw [flatten_metadata, flattenCore]
  simp only [ho, hc2, hm2, hr, hs, hg, hm, getAttr, pyIter, dictItems, pyGetD,
    Except.bind, Bind.bind, pure, Except.pure, fixedFields]
  rw [processGroupingE_eq _ _ hall]
  simp only [Except.bind, groupStage, residualStage]

-- sanity: the agreement lemma applies to the concrete scenario
/-- Lookups of keys untouched by the attribute, grouping, royalty, supply
and residual stages reach back to the ten fixed fields. -/
theorem alookup_flattenCore_early (nft : RawAsset) (k : Str)
    (h1 : ∀ s, ¬("trait_".data ++ s = k))
    (h2 : ∀ s, ¬("metadata_".data ++ s = k))
    (h3 : ¬k = "collection_address".data)
    (h4 : ¬k = "royalty_percent".data)
    (h5 : ¬k = "royalty_locked".data)
    (h6 : ¬k = "supply_print_max_supply".data)
    (h7 : ¬k = "supply_print_current_supply".data)
    (h8 : ¬k = "supply_edition_nonce".data) :
    alookup k (flattenCore nft) = alookup k (fixedFields nft) := by
  simp only [flattenCore]
  rw [alookup_residualStage_ne _ _ _ h2, alookup_dinsert_ne _ _ _ _ h8,
    alookup_dinsert_ne _ _ _ _ h7, alookup_dinsert_ne _ _ _ _ h6,
    alookup_dinsert_ne _ _ _ _ h5, alookup_dinsert_ne _ _ _ _ h4,
    alookup_groupStage_ne _ _ _ h3, alookup_attrStage_ne _ _ _ h1]

/-- C1, counterexample: a raw asset whose `ownership` field holds the
number 5 makes `flatten_metadata` raise `AttributeError` (`5 .get(...)`),
so the claimed totality over arbitrary nested values fails. -/
theorem C1_cex :
    flatten_metadata [("ownership".data, PyVal.int 5)] = .error "AttributeError" := rfl

/-- C1 (amended): for every raw asset whose consulted nested fields
(`ownership`, `content`, `content.metadata`, `royalty`, `supply`) are
mappings when present and whose `grouping` is a list of mappings,
`flatten_metadata` raises no exception and its result contains the ten
unconditional fields `mint_address`, `owner`, `frozen`, `delegated`,
`name`, `symbol`, `description`, `image`, `animation_url` and
`external_url`, each equal to its source field when present and to its
documented default when missing. -/
theorem C1_flatten_ten_fields (nft : RawAsset) (h : wfFlatten nft = true) :
    ∃ row, flatten_metadata nft = .ok row ∧
      alookup "mint_address".data row = some (dget nft "id".data (.str [])) ∧
      alookup "owner".data row =
        some (pyGetD (dget nft "ownership".data (.dict [])) "owner".data (.str [])) ∧
      alookup "frozen".data row =
        some (pyGetD (dget nft "ownership".data (.dict [])) "frozen".data (.bool false)) ∧
      alookup "delegated".data row =
        some (pyGetD (dget nft "ownership".data (.dict [])) "delegated".data (.bool false)) ∧
      alookup "name".data row = some (pyGetD (metadataOf nft) "name".data (.str [])) ∧
      alookup "symbol".data row = some (pyGetD (metadataOf nft) "symbol".data (.str [])) ∧
      alookup "description".data row = some (pyGetD (metadataOf nft) "description".data (.str [])) ∧
      alookup "image".data row = some (pyGetD (metadataOf nft) "image".data (.str [])) ∧
      alookup "animation_url".data row =
        some (pyGetD (metadataOf nft) "animation_url".data (.str [])) ∧
      alookup "external_url".data row =
        some (pyGetD (metadataOf nft) "external_url".data (.str [])) := by
  refine ⟨flattenCore nft, flatten_eq_core nft h, ?_, ?_, ?_, ?_, ?_, ?_, ?_, ?_, ?_, ?_⟩
  · rw [alookup_flattenCore_early nft _
      (fun s => append_ne_of_head 't' 'm' _ _ (by decide) s)
      (fun s => append_ne_of_second 'm' 'e' 'i' _ _ (by decide) s)
      (by decide) (by decide) (by decide) (by decide) (by decide) (by decide)]
    rfl
  · rw [alookup_flattenCore_early nft _
      (fun s => append_ne_of_head 't' 'o' _ _ (by decide) s)
      (fun s => append_ne_of_head 'm' 'o' _ _ (by decide) s)
      (by decide) (by decide) (by decide) (by decide) (by decide) (by decide)]
    rfl
  · rw [alookup_flattenCore_early nft _
      (fun s => append_ne_of_head 't' 'f' _ _ (by decide) s)
      (fun s => append_ne_of_head 'm' 'f' _ _ (by decide) s)
      (by decide) (by decide) (by decide) (by decide) (by decide) (by decide)]
    rfl
  · rw [alookup_flattenCore_early nft _
      (fun s => append_ne_of_head 't' 'd' _ _ (by decide) s)
      (fun s => append_ne_of_head 'm' 'd' _ _ (by decide) s)
      (by decide) (by decide) (by decide) (by decide) (by decide) (by decide)]
    rfl
  · rw [alookup_flattenCore_early nft _
      (fun s => append_ne_of_head 't' 'n' _ _ (by decide) s)
      (fun s => append_ne_of_head 'm' 'n' _ _ (by decide) s)
      (by decide) (by decide) (by decide) (by decide) (by decide) (by decide)]
    rfl
  · rw [alookup_flattenCore_early nft _
      (fun s => append_ne_of_head 't' 's' _ _ (by decide) s)
      (fun s => append_ne_of_head 'm' 's' _ _ (by decide) s)
      (by decide) (by decide) (by decide) (by decide) (by decide) (by decide)]
    rfl
  · rw [alookup_flattenCore_early nft _
      (fun s => append_ne_of_head 't' 'd' _ _ (by decide) s)
      (fun s => append_ne_of_head 'm' 'd' _ _ (by decide) s)
      (by decide) (by decide) (by decide) (by decide) (by decide) (by decide)]
    rfl
  · rw [alookup_flattenCore_early nft _
      (fun s => append_ne_of_head 't' 'i' _ _ (by decide) s)
      (fun s => append_ne_of_head 'm' 'i' _ _ (by decide) s)
      (by decide) (by decide) (by decide) (by decide) (by decide) (by decide)]
    rfl
  · rw [alookup_flattenCore_early nft _
      (fun s => append_ne_of_head 't' 'a' _ _ (by decide) s)
      (fun s => append_ne_of_head 'm' 'a' _ _ (by decide) s)
      (by decide) (by decide) (by decide) (by decide) (by decide) (by decide)]
    rfl
  · rw [alookup_flattenCore_early nft _
      (fun s => append_ne_of_head 't' 'e' _ _ (by decide) s)
      (fun s => append_ne_of_head 'm' 'e' _ _ (by decide) s)
      (by decide) (by decide) (by decide) (by decide) (by decide) (by decide)]
    rfl

/-- C1, witness: a concrete well-formed asset run through the amended
theorem; present fields are returned, missing ones take their defaults. -/
theorem C1_witness :
    ∃ row, flatten_metadata wAsset1 = .ok row ∧
      alookup "mint_address".data row = some (.str "m1".data) ∧
      alookup "frozen".data row = some (.bool true) ∧
      alookup "owner".data row = some (.str []) ∧
      alookup "name".data row = some (.str []) := by
  obtain ⟨row, hok, hmint, howner, hfro, _, hname, _⟩ :=
    C1_flatten_ten_fields wAsset1 rfl
  exact ⟨row, hok, hmint, hfro, howner, hname⟩

/-! ## Attribute columns (C2). -/

theorem alookup_processAttrs_nohit (attrs : List PyVal) (i : Nat) (f : FlatRow) (k : Str)
    (h : ∀ j a, attrs[j]? = some a → attrKeyOf (i + j) a ≠ some k) :
    alookup k (processAttrs f i attrs) = alookup k f := by
  induction attrs generalizing i f with
  | nil => rfl
  | cons a rest ih =>
    have htail : ∀ j a', rest[j]? = some a' → attrKeyOf (i + 1 + j) a' ≠ some k := by
      intro j a' hj
      have := h (j + 1) a' (by rw [List.getElem?_cons_succ]; exact hj)
      rwa [show i + (j + 1) = i + 1 + j by omega] at this
    cases a with
    | dict akvs =>
      rw [processAttrs, ih _ _ htail]
      refine alookup_dinsert_ne _ _ _ _ ?_
      intro he
      exact h 0 (.dict akvs) (by rw [List.getElem?_cons_zero]) (by rw [Nat.add_zero, attrKeyOf, he])
    | str s => exact ih _ _ htail
    | int n => exact ih _ _ htail
    | bool b => exact ih _ _ htail
    | none => exact ih _ _ htail
    | list xs => exact ih _ _ htail

theorem alookup_processAttrs_hit (attrs : List PyVal) (i t : Nat) (f : FlatRow)
    (akvs : List (Str × PyVal)) (k : Str)
    (ht : attrs[t]? = some (.dict akvs))
    (hk : attrKeyOf (i + t) (.dict akvs) = some k)
    (hlater : ∀ j a, t < j → attrs[j]? = some a → attrKeyOf (i + j) a ≠ some k) :
    alookup k (processAttrs f i attrs) = some (dget akvs "value".data (.str [])) := by
  induction attrs generalizing i t f with
  | nil => rw [List.getElem?_nil] at ht; exact Option.noConfusion ht
  | cons a rest ih =>
    cases t with
    | zero =>
      rw [List.getElem?_cons_zero] at ht
      injection ht with ht
      subst ht
      rw [Nat.add_zero, attrKeyOf] at hk
      injection hk with hk
      rw [processAttrs]
      rw [alookup_processAttrs_nohit rest (i + 1) _ k ?later]
      · rw [hk, alookup_dinsert_self]
      case later =>
        intro j a' hj
        have := hlater (j + 1) a' (by omega) (by rw [List.getElem?_cons_succ]; exact hj)
        rwa [show i + (j + 1) = i + 1 + j by omega] at this
    | succ t' =>
      have ht' : rest[t']? = some (.dict akvs) := by rwa [List.getElem?_cons_succ] at ht
      have hk' : attrKeyOf (i + 1 + t') (.dict akvs) = some k := by
        rwa [show i + (t' + 1) = i + 1 + t' by omega] at hk
      have hlater' : ∀ j a, t' < j → rest[j]? = some a → attrKeyOf (i + 1 + j) a ≠ some k := by
        intro j a' hj hga
        have := hlater (j + 1) a' (by omega) (by rw [List.getElem?_cons_succ]; exact hga)
        rwa [show i + (j + 1) = i + 1 + j by omega] at this
      cases a with
      | dict bkvs => exact ih (i + 1) t' _ ht' hk' hlater'
      | str s => exact ih (i + 1) t' _ ht' hk' hlater'
      | int n => exact ih (i + 1) t' _ ht' hk' hlater'
      | bool b => exact ih (i + 1) t' _ ht' hk' hlater'
      | none => exact ih (i + 1) t' _ ht' hk' hlater'
      | list xs => exact ih (i + 1) t' _ ht' hk' hlater'

/-! ## Sanitization fixes word-character strings. -/

theorem word_not_space (c : Char) (hw : isWordChar c = true) : isSpaceChar c = false := by
  by_contra hs
  rw [Bool.not_eq_false] at hs
  simp only [isSpaceChar, Bool.or_eq_true, decide_eq_true_eq] at hs
  rcases hs with ((((rfl | rfl) | rfl) | rfl) | rfl) | rfl <;> exact absurd hw (by decide)

theorem dropWhile_eq_self_of_all (p : Char → Bool) (l : Str)
    (h : ∀ c ∈ l, p c = false) : l.dropWhile p = l := by
  cases l with
  | nil => rfl
  | cons c rest =>
    rw [List.dropWhile_cons, if_neg]
    rw [h c (List.mem_cons_self c rest)]
    exact Bool.false_ne_true

theorem pyStrip_eq_self_of_all (l : Str) (h : ∀ c ∈ l, isSpaceChar c = false) :
    pyStrip l = l := by
  rw [pyStrip, dropWhile_eq_self_of_all _ _ h,
    dropWhile_eq_self_of_all _ _ (fun c hc => h c (List.mem_reverse.mp hc)),
    List.reverse_reverse]

theorem replaceSpace_eq_self_of_no_space (l : Str) (h : ∀ c ∈ l, ¬(c = ' ')) :
    replaceSpace l = l := by
  induction l with
  | nil => rfl
  | cons c rest ih =>
    rw [replaceSpace, List.map_cons, if_neg (h c (List.mem_cons_self c rest))]
    have := ih (fun c hc => h c (List.mem_cons_of_mem _ hc))
    rw [replaceSpace] at this
    rw [this]

theorem sanitize_eq_self_of_word (l : Str) (h : ∀ c ∈ l, isWordChar c = true) :
    sanitize l = l := by
  rw [sanitize, List.filter_eq_self.mpr
    (fun c hc => by rw [keepChar, h c hc, Bool.true_or, Bool.true_or]),
    pyStrip_eq_self_of_all _ (fun c hc => word_not_space c (h c hc)),
    replaceSpace_eq_self_of_no_space _ (fun c hc he =>
      absurd (he ▸ h c hc) (by decide))]

theorem digitChar_word (d : Nat) (h : d < 10) : isWordChar (digitChar d) = true := by
  interval_cases d <;> decide

theorem natToCharsAux_word (f : Nat) : ∀ (n : Nat) (acc : Str),
    (∀ c ∈ acc, isWordChar c = true) → ∀ c ∈ natToCharsAux f n acc, isWordChar c = true := by
  induction f with
  | zero => exact fun n acc hacc c hc => hacc c hc
  | succ f ih =>
    intro n acc hacc c hc
    rw [natToCharsAux] at hc
    by_cases hn : n < 10
    · rw [if_pos hn] at hc
      rcases List.mem_cons.mp hc with rfl | hmem
      · exact digitChar_word n hn
      · exact hacc c hmem
    · rw [if_neg hn] at hc
      refine ih (n / 10) _ ?_ c hc
      intro c2 hc2
      rcases List.mem_cons.mp hc2 with rfl | hmem
      · exact digitChar_word _ (Nat.mod_lt _ (by omega))
      · exact hacc c2 hmem

theorem natToChars_word (n : Nat) : ∀ c ∈ natToChars n, isWordChar c = true :=
  natToCharsAux_word (n + 1) n [] (fun c hc => absurd hc (List.not_mem_nil c))

theorem sanitize_attr_key (i : Nat) :
    sanitize ("attribute_".data ++ natToChars i) = "attribute_".data ++ natToChars i := by
  refine sanitize_eq_self_of_word _ ?_
  intro c hc
  rcases List.mem_append.mp hc with hmem | hmem
  · have hall : ∀ x ∈ "attribute_".data, isWordChar x = true := by decide
    exact hall c hmem
  · exact natToChars_word i c hmem

/-! ## Reaching the attribute stage of `flattenCore`. -/

theorem alookup_flattenCore_trait (nft : RawAsset) (s : Str) :
    alookup ("trait_".data ++ s) (flattenCore nft) =
      alookup ("trait_".data ++ s)
        (attrStage (fixedFields nft) (pyGetD (metadataOf nft) "attributes".data (.list []))) := by
  simp only [flattenCore]
  rw [alookup_residualStage_ne _ _ _ (fun u => append_append_ne_head 'm' 't' _ _ (by decide) u s),
    alookup_dinsert_ne _ _ _ _ (append_ne_of_head 't' 's' _ _ (by decide) s),
    alookup_dinsert_ne _ _ _ _ (append_ne_of_head 't' 's' _ _ (by decide) s),
    alookup_dinsert_ne _ _ _ _ (append_ne_of_head 't' 's' _ _ (by decide) s),
    alookup_dinsert_ne _ _ _ _ (append_ne_of_head 't' 'r' _ _ (by decide) s),
    alookup_dinsert_ne _ _ _ _ (append_ne_of_head 't' 'r' _ _ (by decide) s),
    alookup_groupStage_ne _ _ _ (append_ne_of_head 't' 'c' _ _ (by decide) s)]

theorem alookup_fixedFields_attr_none (nft : RawAsset) (s : Str) :
    alookup ("attribute_".data ++ s) (fixedFields nft) = Option.none := by
  simp only [fixedFields]
  rw [alookup_dinsert_ne _ _ _ _ (append_ne_of_head 'a' 'e' _ _ (by decide) s),
    alookup_dinsert_ne _ _ _ _ (append_ne_of_second 'a' 't' 'n' _ _ (by decide) s),
    alookup_dinsert_ne _ _ _ _ (append_ne_of_head 'a' 'i' _ _ (by decide) s),
    alookup_dinsert_ne _ _ _ _ (append_ne_of_head 'a' 'd' _ _ (by decide) s),
    alookup_dinsert_ne _ _ _ _ (append_ne_of_head 'a' 's' _ _ (by decide) s),
    alookup_dinsert_ne _ _ _ _ (append_ne_of_head 'a' 'n' _ _ (by decide) s),
    alookup_dinsert_ne _ _ _ _ (append_ne_of_head 'a' 'd' _ _ (by decide) s),
    alookup_dinsert_ne _ _ _ _ (append_ne_of_head 'a' 'f' _ _ (by decide) s),
    alookup_dinsert_ne _ _ _ _ (append_ne_of_head 'a' 'o' _ _ (by decide) s),
    alookup_dinsert_ne _ _ _ _ (append_ne_of_head 'a' 'm' _ _ (by decide) s)]
  rfl

theorem alookup_flattenCore_attr_bare_none (nft : RawAsset) (s : Str) :
    alookup ("attribute_".data ++ s) (flattenCore nft) = Option.none := by
  rw [alookup_flattenCore_early nft _
    (fun u => append_append_ne_head 't' 'a' _ _ (by decide) u s)
    (fun u => append_append_ne_head 'm' 'a' _ _ (by decide) u s)
    (append_ne_of_head 'a' 'c' _ _ (by decide) s)
    (append_ne_of_head 'a' 'r' _ _ (by decide) s)
    (append_ne_of_head 'a' 'r' _ _ (by decide) s)
    (append_ne_of_head 'a' 's' _ _ (by decide) s)
    (append_ne_of_head 'a' 's' _ _ (by decide) s)
    (append_ne_of_head 'a' 's' _ _ (by decide) s)]
  exact alookup_fixedFields_attr_none nft s

/-- C2, counterexample: an asset whose attribute entry at index 2 has no
`trait_type` gets no column named `attribute_2`; the synthesized name is
prefixed, giving `trait_attribute_2`. -/
theorem C2_cex :
    alookup "attribute_2".data (rowOf (flatten_metadata scn2)) = Option.none ∧
    alookup "trait_attribute_2".data (rowOf (flatten_metadata scn2)) =
      some (.str "v".data) := ⟨rfl, rfl⟩

/-- C2 (amended): for every well-formed raw asset whose metadata
attributes list holds, at zero-based index `i`, a dict entry without
`trait_type`, and where no later entry derives the same column name,
`flatten_metadata` emits for that entry the column `trait_attribute_<i>`
(the synthesized `attribute_<i>` receives the usual `trait_` prefix)
holding the entry's `value`; the bare name `attribute_<i>` is absent. -/
theorem C2_attribute_column (nft : RawAsset) (attrs : List PyVal) (i : Nat)
    (akvs : List (Str × PyVal))
    (hwf : wfFlatten nft = true)
    (hattrs : pyGetD (metadataOf nft) "attributes".data (.list []) = .list attrs)
    (hi : attrs[i]? = some (.dict akvs))
    (hmiss : alookup "trait_type".data akvs = Option.none)
    (hlater : ∀ j a, i < j → attrs[j]? = some a →
      attrKeyOf j a ≠ some ("trait_attribute_".data ++ natToChars i)) :
    ∃ row, flatten_metadata nft = .ok row ∧
      alookup ("trait_attribute_".data ++ natToChars i) row =
        some (dget akvs "value".data (.str [])) ∧
      alookup ("attribute_".data ++ natToChars i) row = Option.none := by
  have hkey : "trait_attribute_".data ++ natToChars i =
      "trait_".data ++ ("attribute_".data ++ natToChars i) := by
    rw [show "trait_attribute_".data = "trait_".data ++ "attribute_".data from rfl,
      List.append_assoc]
  refine ⟨flattenCore nft, flatten_eq_core nft hwf, ?_, ?_⟩
  · rw [hkey, alookup_flattenCore_trait, hattrs, attrStage]
    refine alookup_processAttrs_hit attrs 0 i _ akvs _ hi ?_ ?_
    · rw [Nat.zero_add, attrKeyOf, dget, hmiss, Option.getD_none, pyStrChars,
        sanitize_attr_key i]
    · intro j a hj hja
      have := hlater j a hj hja
      rw [hkey] at this
      rwa [Nat.zero_add]
  · exact alookup_flattenCore_attr_bare_none nft (natToChars i)

/-- C2, witness: the amended theorem applied to the concrete Scenario-4
asset (attribute entry without `trait_type` at index 2). -/
theorem C2_witness :
    ∃ row, flatten_metadata scn2 = .ok row ∧
      alookup "trait_attribute_2".data row = some (.str "v".data) ∧
      alookup "attribute_2".data row = Option.none := by
  have hl : ∀ j a, 2 < j →
      ([PyVal.dict [], PyVal.dict [],
        PyVal.dict [("value".data, PyVal.str "v".data)]])[j]? = some a →
      attrKeyOf j a ≠ some ("trait_attribute_".data ++ natToChars 2) := by
    intro j a hj hja
    rw [List.getElem?_eq_none (by simp; omega)] at hja
    exact Option.noConfusion hja
  exact C2_attribute_column scn2 _ 2 _ rfl rfl rfl rfl hl

/-! ## Sanitization: the reference function and idempotence. -/

theorem collapseEachSpace_eq_replaceSpace (l : Str) :
    collapseEachSpace l = replaceSpace l := by
  induction l with
  | nil => rfl
  | cons c rest ih =>
    rw [collapseEachSpace, replaceSpace, List.map_cons, ih, replaceSpace]
    by_cases hc : c = ' '
    · rw [if_pos hc, if_pos hc]
    · rw [if_neg hc, if_neg hc]

/-- C3, counterexample: on two consecutive spaces the code yields two
underscores while the claimed reference function yields one. -/
theorem C3_cex : sanitize "a  b".data ≠ refSanitize "a  b".data := by decide

/-- C3 (amended): the sanitization applied to trait names and residual
metadata keys equals the reference function that removes every character
that is not alphanumeric, underscore, whitespace or hyphen, trims
surrounding whitespace, and then replaces each single space character
with one underscore (a run of k spaces becomes k underscores; internal
tabs and newlines are left unchanged). -/
theorem C3_sanitize_spec (l : Str) :
    sanitize l = collapseEachSpace (pyStrip (List.filter keepChar l)) := by
  rw [sanitize, collapseEachSpace_eq_replaceSpace]

theorem head_dropWhile_not (p : Char → Bool) (l : Str) :
    ∀ c, (l.dropWhile p).head? = some c → p c = false := by
  induction l with
  | nil => intro c hc; exact Option.noConfusion hc
  | cons a rest ih =>
    intro c hc
    rw [List.dropWhile_cons] at hc
    by_cases ha : p a = true
    · rw [if_pos ha] at hc
      exact ih c hc
    · rw [if_neg ha] at hc
      injection hc with hc
      cases hpa : p a with
      | true => exact absurd hpa ha
      | false => rw [← hc]; exact hpa

theorem getLast_dropWhile_of_last (p : Char → Bool) (u : Str) (c : Char)
    (h : (u.dropWhile p).getLast? = some c) : u.getLast? = some c := by
  obtain ⟨t, ht⟩ := List.dropWhile_suffix (l := u) p
  rw [← ht, List.getLast?_append]
  rw [h]
  rfl

theorem pyStrip_head_not_space (l : Str) :
    ∀ c, (pyStrip l).head? = some c → isSpaceChar c = false := by
  intro c hc
  rw [pyStrip, List.head?_reverse] at hc
  have h2 := getLast_dropWhile_of_last isSpaceChar _ c hc
  rw [List.getLast?_reverse] at h2
  exact head_dropWhile_not _ _ c h2

theorem pyStrip_last_not_space (l : Str) :
    ∀ c, (pyStrip l).getLast? = some c → isSpaceChar c = false := by
  intro c hc
  rw [pyStrip, List.getLast?_reverse] at hc
  exact head_dropWhile_not _ _ c hc

theorem pyStrip_eq_self_of_bounds (l : Str)
    (hh : ∀ c, l.head? = some c → isSpaceChar c = false)
    (hl : ∀ c, l.getLast? = some c → isSpaceChar c = false) :
    pyStrip l = l := by
  have h1 : l.dropWhile isSpaceChar = l := by
    cases l with
    | nil => rfl
    | cons a rest =>
      rw [List.dropWhile_cons, if_neg]
      rw [hh a rfl]
      exact Bool.false_ne_true
  have h2 : l.reverse.dropWhile isSpaceChar = l.reverse := by
    cases hrev : l.reverse with
    | nil => rfl
    | cons a rest =>
      rw [List.dropWhile_cons, if_neg]
      have : l.getLast? = some a := by
        rw [← List.head?_reverse, hrev]
        rfl
      rw [hl a this]
      exact Bool.false_ne_true
  rw [pyStrip, h1, h2, List.reverse_reverse]

theorem keep_of_mem_sanitize (l : Str) (c : Char) (hc : c ∈ sanitize l) :
    keepChar c = true := by
  rw [sanitize, replaceSpace] at hc
  obtain ⟨c', hc', he⟩ := List.mem_map.mp hc
  have hmem : c' ∈ List.filter keepChar l := by
    rw [pyStrip] at hc'
    have s1 := List.mem_reverse.mp hc'
    have s2 := (List.dropWhile_sublist isSpaceChar).subset s1
    have s3 := List.mem_reverse.mp s2
    exact (List.dropWhile_sublist isSpaceChar).subset s3
  have hkeep := (List.mem_filter.mp hmem).2
  by_cases hsp : c' = ' '
  · rw [if_pos hsp] at he
    rw [← he]
    decide
  · rw [if_neg hsp] at he
    rw [← he]
    exact hkeep

theorem not_space_of_mem_sanitize (l : Str) (c : Char) (hc : c ∈ sanitize l) :
    ¬(c = ' ') := by
  rw [sanitize, replaceSpace] at hc
  obtain ⟨c', _, he⟩ := List.mem_map.mp hc
  by_cases hsp : c' = ' '
  · rw [if_pos hsp] at he
    rw [← he]
    decide
  · rw [if_neg hsp] at he
    rw [← he]
    exact hsp

theorem sanitize_head_not_space (l : Str) :
    ∀ c, (sanitize l).head? = some c → isSpaceChar c = false := by
  intro c hc
  rw [sanitize, replaceSpace, List.head?_map] at hc
  cases hstr : (pyStrip (List.filter keepChar l)).head? with
  | none => rw [hstr] at hc; exact Option.noConfusion hc
  | some c' =>
    rw [hstr] at hc
    injection hc with hc
    have hns := pyStrip_head_not_space _ c' hstr
    have hsp : ¬(c' = ' ') := fun he => by
      rw [he] at hns
      exact absurd hns (by decide)
    have hc2 : (if c' = ' ' then '_' else c') = c := hc
    rw [if_neg hsp] at hc2
    rw [← hc2]
    exact hns

theorem sanitize_last_not_space (l : Str) :
    ∀ c, (sanitize l).getLast? = some c → isSpaceChar c = false := by
  intro c hc
  rw [sanitize, replaceSpace, List.getLast?_map] at hc
  cases hstr : (pyStrip (List.filter keepChar l)).getLast? with
  | none => rw [hstr] at hc; exact Option.noConfusion hc
  | some c' =>
    rw [hstr] at hc
    injection hc with hc
    have hns := pyStrip_last_not_space _ c' hstr
    have hsp : ¬(c' = ' ') := fun he => by
      rw [he] at hns
      exact absurd hns (by decide)
    have hc2 : (if c' = ' ' then '_' else c') = c := hc
    rw [if_neg hsp] at hc2
    rw [← hc2]
    exact hns

/-- C9: the sanitization function is idempotent — sanitizing an
already-sanitized string yields the same string. -/
theorem C9_sanitize_idem (l : Str) : sanitize (sanitize l) = sanitize l := by
  have hfix : List.filter keepChar (sanitize l) = sanitize l :=
    List.filter_eq_self.mpr (fun c hc => keep_of_mem_sanitize l c hc)
  have hnos : ∀ c ∈ sanitize l, ¬(c = ' ') :=
    fun c hc => not_space_of_mem_sanitize l c hc
  calc sanitize (sanitize l)
      = replaceSpace (pyStrip (sanitize l)) := by rw [sanitize, hfix]
    _ = replaceSpace (sanitize l) := by
        rw [pyStrip_eq_self_of_bounds _ (sanitize_head_not_space l) (sanitize_last_not_space l)]
    _ = sanitize l := replaceSpace_eq_self_of_no_space _ hnos

/-! ## Residual metadata columns (C7). -/

theorem alookup_processResidual_keys (items : List (Str × PyVal)) (f : FlatRow) (k : Str)
    (h : ∀ k' v', (k', v') ∈ items → consumedKeys.contains k' = false →
      ¬("metadata_".data ++ sanitize k' = k)) :
    alookup k (processResidual f items) = alookup k f := by
  induction items generalizing f with
  | nil => rfl
  | cons e items ih =>
    obtain ⟨ek, ev⟩ := e
    have htail : ∀ k' v', (k', v') ∈ items → consumedKeys.contains k' = false →
        ¬("metadata_".data ++ sanitize k' = k) :=
      fun k' v' hm => h k' v' (List.mem_cons_of_mem _ hm)
    rw [processResidual]
    by_cases hc : consumedKeys.contains ek = true
    · rw [if_pos hc]
      exact ih _ htail
    · rw [if_neg hc, ih _ htail, alookup_dinsert_ne]
      intro he
      exact h ek ev (List.mem_cons_self _ _) (Bool.not_eq_true _ ▸ hc) he.symm

theorem alookup_processResidual_hit (items : List (Str × PyVal)) (f : FlatRow)
    (k : Str) (v : PyVal)
    (hmem : (k, v) ∈ items)
    (hnodup : (items.map Prod.fst).Nodup)
    (hcons : consumedKeys.contains k = false)
    (hcol : ∀ k' v', (k', v') ∈ items → consumedKeys.contains k' = false → ¬(k' = k) →
      ¬(sanitize k' = sanitize k)) :
    alookup ("metadata_".data ++ sanitize k) (processResidual f items) =
      some (serializeV v) := by
  induction items generalizing f with
  | nil => exact absurd hmem (List.not_mem_nil _)
  | cons e items ih =>
    obtain ⟨ek, ev⟩ := e
    rw [List.map_cons, List.nodup_cons] at hnodup
    rcases List.mem_cons.mp hmem with heq | hmem'
    · injection heq with hek hev
      subst hek
      subst hev
      rw [processResidual, if_neg (fun hcc : consumedKeys.contains k = true =>
        Bool.false_ne_true (hcons ▸ hcc))]
      rw [alookup_processResidual_keys items _ _ ?keys]
      · exact alookup_dinsert_self _ _ _
      case keys =>
        intro k' v' hm hc he
        have hk' : ¬(k' = k) := by
          intro hkk
          subst hkk
          exact hnodup.1 (List.mem_map.mpr ⟨(k', v'), hm, rfl⟩)
        have := hcol k' v' (List.mem_cons_of_mem _ hm) hc hk'
        exact this (List.append_cancel_left he)
    · have hek : ¬(ek = k) := by
        intro hkk
        subst hkk
        exact hnodup.1 (List.mem_map.mpr ⟨(ek, v), hmem', rfl⟩)
      have htailcol : ∀ k' v', (k', v') ∈ items → consumedKeys.contains k' = false →
          ¬(k' = k) → ¬(sanitize k' = sanitize k) :=
        fun k' v' hm => hcol k' v' (List.mem_cons_of_mem _ hm)
      rw [processResidual]
      by_cases hc : consumedKeys.contains ek = true
      · rw [if_pos hc]
        exact ih _ hmem' hnodup.2 htailcol
      · rw [if_neg hc, ih _ hmem' hnodup.2 htailcol]

/-- C7, counterexample: with metadata entries `"a!"` and `"a"` both
sanitizing to `a`, the later entry overwrites the column, so
`metadata_a` holds `"y"` (the value of key `"a"`) and not the claimed
serialization `"x"` of key `"a!"`. -/
theorem C7_cex :
    alookup "metadata_a".data (rowOf (flatten_metadata scn7)) = some (.str "y".data) ∧
    PyVal.str "y".data ≠ PyVal.str "x".data :=
  ⟨rfl, fun h => by injection h with h2; exact absurd h2 (by decide)⟩

/-- C7 (amended): for every well-formed raw asset with duplicate-free
metadata keys, each key of `content.metadata` other than `name`, `symbol`,
`description`, `image`, `animation_url`, `external_url` and `attributes`
that no other non-consumed residual key collides with after sanitization
is emitted as the column `metadata_<sanitized key>` holding the JSON
serialization of its value when that value is a dict or list, and its
plain string coercion otherwise (when several residual keys sanitize to
the same name, the last one wins). -/
theorem C7_residual_column (nft : RawAsset) (mkvs : List (Str × PyVal))
    (k : Str) (v : PyVal)
    (hwf : wfFlatten nft = true)
    (hmd : metadataOf nft = .dict mkvs)
    (hmem : (k, v) ∈ mkvs)
    (hnodup : (mkvs.map Prod.fst).Nodup)
    (hcons : consumedKeys.contains k = false)
    (hcol : ∀ k' v', (k', v') ∈ mkvs → consumedKeys.contains k' = false → ¬(k' = k) →
      ¬(sanitize k' = sanitize k)) :
    ∃ row, flatten_metadata nft = .ok row ∧
      alookup ("metadata_".data ++ sanitize k) row = some (serializeV v) := by
  refine ⟨flattenCore nft, flatten_eq_core nft hwf, ?_⟩
  simp only [flattenCore, hmd, residualStage]
  exact alookup_processResidual_hit mkvs _ k v hmem hnodup hcons hcol

/-- C7, witness: the amended theorem applied to the Scenario-5 asset —
metadata key `"Custom Tag!"` with value `{"a": 1}` yields the column
`metadata_Custom_Tag` holding exactly the JSON text. -/
theorem C7_witness :
    ∃ row, flatten_metadata scn5 = .ok row ∧
      alookup "metadata_Custom_Tag".data row =
        some (.str "\x7b\"a\": 1\x7d".data) := by
  have hcol : ∀ k' v',
      (k', v') ∈ [("Custom Tag!".data, PyVal.dict [("a".data, PyVal.int 1)])] →
      consumedKeys.contains k' = false → ¬(k' = "Custom Tag!".data) →
      ¬(sanitize k' = sanitize "Custom Tag!".data) := by
    intro k' v' hm _ hne
    rw [List.mem_singleton] at hm
    exact absurd (congrArg Prod.fst hm) hne
  exact C7_residual_column scn5 _ "Custom Tag!".data (PyVal.dict [("a".data, PyVal.int 1)])
    rfl rfl (List.mem_singleton.mpr rfl) (by decide) rfl hcol

/-! ## The year pattern and name resolution (C4, C8). -/

theorem matchesYear_iff (a b c d : Char) (r : Str) :
    matchesYear (a :: b :: c :: d :: r) = true ↔
      (isDigitChar a = true ∧ isDigitChar b = true ∧ isDigitChar c = true ∧
       isDigitChar d = true ∧ 1990 ≤ yearVal a b c d ∧ yearVal a b c d ≤ 2025) := by
  rw [matchesYear, decide_eq_true_eq]
  simp only [isDigitChar, decide_eq_true_eq, yearVal]
  omega

theorem matchesYear_short (s : Str) (h : s.length < 4) : matchesYear s = false := by
  match s with
  | [] => rfl
  | [a] => rfl
  | [a, b] => rfl
  | [a, b, c] => rfl
  | a :: b :: c :: d :: r => simp only [List.length_cons] at h; omega

theorem wfName_dest (nft : RawAsset) (h : wfName nft = true) :
    ∃ ckvs mkvs, dget nft "content".data (.dict []) = .dict ckvs ∧
      dget ckvs "metadata".data (.dict []) = .dict mkvs := by
  unfold wfName at h
  rcases hc : dget nft "content".data (.dict []) with _ | _ | _ | _ | _ | ckvs <;> rw [hc] at h
  · exact (Bool.false_ne_true h).elim
  · exact (Bool.false_ne_true h).elim
  · exact (Bool.false_ne_true h).elim
  · exact (Bool.false_ne_true h).elim
  · exact (Bool.false_ne_true h).elim
  · have h2 : (match dget ckvs "metadata".data (PyVal.dict []) with
        | PyVal.dict _ => true
        | _ => false) = true := h
    rcases hm : dget ckvs "metadata".data (.dict []) with _ | _ | _ | _ | _ | mkvs <;>
      rw [hm] at h2
    · exact (Bool.false_ne_true h2).elim
    · exact (Bool.false_ne_true h2).elim
    · exact (Bool.false_ne_true h2).elim
    · exact (Bool.false_ne_true h2).elim
    · exact (Bool.false_ne_true h2).elim
    · exact ⟨ckvs, mkvs, rfl, hm⟩

theorem resolveNameMain_eq (nft : RawAsset) (h : wfName nft = true) :
    resolveNameMain nft = .ok (firstTruthy (specCandidatesMain nft)) := by
  obtain ⟨ckvs, mkvs, hc, hm⟩ := wfName_dest nft h
  rw [resolveNameMain, specCandidatesMain, metadataOf, contentOf, hc]
  simp only [hm, getAttr, pyGetD, Except.bind, Bind.bind, pure, Except.pure, firstTruthy]
  by_cases h1 : pyTruthy (dget mkvs "name".data .none) = true
  · rw [if_pos h1, if_pos h1]
  · rw [if_neg h1, if_neg h1]
    by_cases h2 : pyTruthy (dget ckvs "name".data .none) = true
    · rw [if_pos h2, if_pos h2]
    · rw [if_neg h2, if_neg h2]

theorem ite_bool_flip {α : Type} (b : Bool) (x y : α) :
    (if b = false then x else y) = if b = true then y else x := by
  cases b <;> rfl

theorem resolveNameExt_eq (nft : RawAsset) (h : wfName nft = true) :
    resolveNameExt nft = .ok (firstTruthy (specCandidatesExt nft)) := by
  obtain ⟨ckvs, mkvs, hc, hm⟩ := wfName_dest nft h
  rw [resolveNameExt, specCandidatesExt, metadataOf, contentOf, hc]
  simp only [hm, pyGetD]
  cases hcv : alookup "content".data nft with
  | none =>
    have hck : ckvs = ([] : List (Str × PyVal)) := by
      have h2 : PyVal.dict [] = PyVal.dict ckvs := by rw [← hc, dget, hcv]; rfl
      injection h2 with h2
      exact h2.symm
    subst hck
    have hmk : mkvs = ([] : List (Str × PyVal)) := by
      have h2 : PyVal.dict [] = PyVal.dict mkvs := by rw [← hm]; rfl
      injection h2 with h2
      exact h2.symm
    subst hmk
    simp [hcv, dget, alookup, firstTruthy, pyTruthy]
    rfl
  | some cv =>
    have hcd : ∀ d, dget nft "content".data d = cv := fun d => by rw [dget, hcv]; rfl
    have hcv2 : cv = .dict ckvs := by rw [← hc, hcd]
    subst hcv2
    cases hmv : alookup "metadata".data ckvs with
    | none =>
      have hmk : mkvs = ([] : List (Str × PyVal)) := by
        have h2 : PyVal.dict [] = PyVal.dict mkvs := by rw [← hm, dget, hmv]; rfl
        injection h2 with h2
        exact h2.symm
      subst hmk
      simp only [hcv, Option.isSome_some, if_true, hcd, pyContains, hmv, Option.isSome_none,
        Except.bind, Bind.bind, pure, Except.pure, Bool.false_eq_true, if_false, getAttr,
        firstTruthy]
      simp [dget, alookup, pyTruthy, firstTruthy, ite_bool_flip]
    | some mv =>
      have hmd : mv = .dict mkvs := by
        have h2 : dget ckvs "metadata".data (.dict []) = mv := by rw [dget, hmv]; rfl
        rw [← h2, hm]
      subst hmd
      simp only [hcv, Option.isSome_some, if_true, hcd, pyContains, hmv, Option.isSome_some,
        Except.bind, Bind.bind, pure, Except.pure, pySubscript, getAttr, firstTruthy]
      by_cases h1 : pyTruthy (dget mkvs "name".data .none) = true
      · simp [h1]
      · simp only [h1, Bool.false_eq_true, if_false]
        by_cases h2 : pyTruthy (dget mkvs "title".data (.str [])) = true
        · simp [h1, h2]
        · simp only [h2, Bool.false_eq_true, if_false]
          by_cases h3 : pyTruthy (dget ckvs "name".data (.str [])) = true
          · simp [h1, h2, h3, ite_bool_flip]
          · simp [h1, h2, h3, ite_bool_flip]

theorem filter_main_ok (nfts : List RawAsset) (h : ∀ nft ∈ nfts, wfName nft = true) :
    ∃ res, filter_nfts_by_year_main nfts = .ok res ∧ res.Sublist nfts ∧
      ∀ nft ∈ res, matchesYear (pyStrChars (firstTruthy (specCandidatesMain nft))) = true := by
  induction nfts with
  | nil => exact ⟨[], rfl, List.Sublist.refl [], fun nft hn => absurd hn (List.not_mem_nil _)⟩
  | cons nft rest ih =>
    obtain ⟨res, hok, hsub, hprop⟩ := ih (fun x hx => h x (List.mem_cons_of_mem _ hx))
    have hr := resolveNameMain_eq nft (h nft (List.mem_cons_self _ _))
    rw [filter_nfts_by_year_main, hr]
    simp only [Except.bind, Bind.bind, hok, pure, Except.pure]
    by_cases hcond : (pyTruthy (firstTruthy (specCandidatesMain nft)) &&
        matchesYear (pyStrChars (firstTruthy (specCandidatesMain nft)))) = true
    · rw [if_pos hcond]
      refine ⟨nft :: res, rfl, hsub.cons₂ _, ?_⟩
      intro x hx
      rcases List.mem_cons.mp hx with rfl | hx'
      · exact ((Bool.and_eq_true _ _).mp hcond).2
      · exact hprop x hx'
    · rw [if_neg hcond]
      exact ⟨res, rfl, hsub.cons _, hprop⟩

theorem filter_ext_ok (nfts : List RawAsset) (h : ∀ nft ∈ nfts, wfName nft = true) :
    ∃ res, filter_nfts_by_year_ext nfts = .ok res ∧ res.Sublist nfts ∧
      ∀ nft ∈ res, matchesYear (pyStrChars (firstTruthy (specCandidatesExt nft))) = true := by
  induction nfts with
  | nil => exact ⟨[], rfl, List.Sublist.refl [], fun nft hn => absurd hn (List.not_mem_nil _)⟩
  | cons nft rest ih =>
    obtain ⟨res, hok, hsub, hprop⟩ := ih (fun x hx => h x (List.mem_cons_of_mem _ hx))
    have hr := resolveNameExt_eq nft (h nft (List.mem_cons_self _ _))
    rw [filter_nfts_by_year_ext, hr]
    simp only [Except.bind, Bind.bind, hok, pure, Except.pure]
    by_cases hcond : (pyTruthy (firstTruthy (specCandidatesExt nft)) &&
        matchesYear (pyStrChars (firstTruthy (specCandidatesExt nft)))) = true
    · rw [if_pos hcond]
      refine ⟨nft :: res, rfl, hsub.cons₂ _, ?_⟩
      intro x hx
      rcases List.mem_cons.mp hx with rfl | hx'
      · exact ((Bool.and_eq_true _ _).mp hcond).2
      · exact hprop x hx'
    · rw [if_neg hcond]
      exact ⟨res, rfl, hsub.cons _, hprop⟩

/-- C4, counterexample: on an asset whose `content` holds the number 5
(a legal RawAsset: an untyped mapping), `filter_nfts_by_year` raises
`AttributeError` instead of returning a subsequence. -/
theorem C4_cex :
    filter_nfts_by_year_main [[(("content".data : Str), PyVal.int 5)]] =
      .error "AttributeError" := rfl

/-- C4 (amended): for every input list of RawAsset whose elements are
well-formed for name resolution (`content`, and its `metadata`, are
mappings when present), both variants of `filter_nfts_by_year` return a
subsequence of the input in the original order, and every retained
record's resolved display name matches `^(199[0-9]|20[01][0-9]|202[0-5])`
— equivalently, its first four characters parse as a year between 1990
and 2025 inclusive (so a name starting "2026" is excluded and "1999wow"
is included), while names shorter than four characters never match. -/
theorem C4_filter_year (nfts : List RawAsset) (h : ∀ nft ∈ nfts, wfName nft = true) :
    (∃ res, filter_nfts_by_year_main nfts = .ok res ∧ res.Sublist nfts ∧
      ∀ nft ∈ res, matchesYear (pyStrChars (firstTruthy (specCandidatesMain nft))) = true) ∧
    (∃ res, filter_nfts_by_year_ext nfts = .ok res ∧ res.Sublist nfts ∧
      ∀ nft ∈ res, matchesYear (pyStrChars (firstTruthy (specCandidatesExt nft))) = true) ∧
    (∀ a b c d r, matchesYear (a :: b :: c :: d :: r) = true ↔
      (isDigitChar a = true ∧ isDigitChar b = true ∧ isDigitChar c = true ∧
       isDigitChar d = true ∧ 1990 ≤ yearVal a b c d ∧ yearVal a b c d ≤ 2025)) ∧
    (∀ s : Str, s.length < 4 → matchesYear s = false) :=
  ⟨filter_main_ok nfts h, filter_ext_ok nfts h,
    fun a b c d r => matchesYear_iff a b c d r, fun s hs => matchesYear_short s hs⟩

/-- C4, witness: the amended filter theorem at a concrete list whose
names are "2026 party" (excluded), "1999wow" and "2025 Edge" (included). -/
theorem C4_witness :
    (∃ res, filter_nfts_by_year_main wList = .ok res ∧ res.Sublist wList ∧
      ∀ nft ∈ res, matchesYear (pyStrChars (firstTruthy (specCandidatesMain nft))) = true) ∧
    (∃ res, filter_nfts_by_year_ext wList = .ok res ∧ res.Sublist wList ∧
      ∀ nft ∈ res, matchesYear (pyStrChars (firstTruthy (specCandidatesExt nft))) = true) ∧
    (∀ a b c d r, matchesYear (a :: b :: c :: d :: r) = true ↔
      (isDigitChar a = true ∧ isDigitChar b = true ∧ isDigitChar c = true ∧
       isDigitChar d = true ∧ 1990 ≤ yearVal a b c d ∧ yearVal a b c d ≤ 2025)) ∧
    (∀ s : Str, s.length < 4 → matchesYear s = false) :=
  C4_filter_year wList (by decide)

/-- C8, counterexample: an asset whose `content` is the string "x" makes
`filter_nfts_by_year` raise `AttributeError` during name resolution, so
the claimed resolution-and-silent-drop over every RawAsset fails. -/
theorem C8_cex :
    filter_nfts_by_year_main [[(("content".data : Str), PyVal.str "x".data)]] =
      .error "AttributeError" := rfl

/-- C8 (amended): for every raw asset that is well-formed for name
resolution, the `main.py` variant resolves the display name as the first
truthy candidate of `content.metadata.name`, `content.name`, top-level
`name`, and the `nft_extractor.py` variant as the first truthy candidate
of `content.metadata.name`, `content.metadata.title`, `content.name`,
top-level `name`; a record all of whose candidates are empty or missing
is dropped from the output without error. -/
theorem C8_name_resolution (nft : RawAsset) (h : wfName nft = true) :
    resolveNameMain nft = .ok (firstTruthy (specCandidatesMain nft)) ∧
    resolveNameExt nft = .ok (firstTruthy (specCandidatesExt nft)) ∧
    (pyTruthy (firstTruthy (specCandidatesMain nft)) = false →
      filter_nfts_by_year_main [nft] = .ok []) ∧
    (pyTruthy (firstTruthy (specCandidatesExt nft)) = false →
      filter_nfts_by_year_ext [nft] = .ok []) := by
  refine ⟨resolveNameMain_eq nft h, resolveNameExt_eq nft h, ?_, ?_⟩
  · intro hfalse
    rw [filter_nfts_by_year_main, resolveNameMain_eq nft h]
    simp only [Except.bind, Bind.bind, pure, Except.pure, filter_nfts_by_year_main,
      hfalse, Bool.false_and, Bool.false_eq_true, if_false]
  · intro hfalse
    rw [filter_nfts_by_year_ext, resolveNameExt_eq nft h]
    simp only [Except.bind, Bind.bind, pure, Except.pure, filter_nfts_by_year_ext,
      hfalse, Bool.false_and, Bool.false_eq_true, if_false]

/-- C8, witness: the amended theorem at concrete assets — the two
variants resolve through their different fallback chains (`content.name`
for `main.py`, `metadata.title` for `nft_extractor.py`), and a record
with no truthy candidate is dropped without error. -/
theorem C8_witness :
    resolveNameMain wAssetC8a = .ok (.str "c".data) ∧
    resolveNameExt wAssetC8a = .ok (.str "t".data) ∧
    filter_nfts_by_year_main [wAssetC8b] = .ok [] ∧
    filter_nfts_by_year_ext [wAssetC8b] = .ok [] := by
  obtain ⟨h1, h2, _, _⟩ := C8_name_resolution wAssetC8a rfl
  obtain ⟨_, _, h3, h4⟩ := C8_name_resolution wAssetC8b rfl
  exact ⟨h1, h2, h3 rfl, h4 rfl⟩

/-! ## Export: empty input and header (C10, C5). -/

/-- C10: for the empty input list, `export_to_csv` returns the
"nothing to export" signal (`none`, after the UI warning) and produces
no file; a file name and content are returned only for non-empty input. -/
theorem C10_export_empty :
    (∀ filename ts, export_to_csv [] filename ts = .ok Option.none) ∧
    (∀ nfts filename ts p, export_to_csv nfts filename ts = .ok (some p) → nfts ≠ []) := by
  refine ⟨fun filename ts => rfl, ?_⟩
  intro nfts filename ts p h hn
  subst hn
  exact Option.noConfusion (Except.ok.inj h)

/-- C10, witness: the empty list yields the signal and a concrete
singleton list yields a file, hence is non-empty by the theorem. -/
theorem C10_witness :
    export_to_csv [] Option.none [] = .ok Option.none ∧
    ([wExportAsset] : List RawAsset) ≠ [] :=
  ⟨C10_export_empty.1 Option.none [],
   C10_export_empty.2 [wExportAsset] Option.none [] wExportOut rfl⟩

theorem mem_insertKey (acc : List Str) (k x : Str) :
    x ∈ insertKey acc k ↔ x ∈ acc ∨ x = k := by
  rw [insertKey]
  by_cases h : k ∈ acc
  · rw [if_pos h]
    exact ⟨Or.inl, fun hx => hx.elim id (fun he => he ▸ h)⟩
  · rw [if_neg h]
    simp [List.mem_append]

theorem nodup_insertKey (acc : List Str) (k : Str) (h : acc.Nodup) :
    (insertKey acc k).Nodup := by
  rw [insertKey]
  by_cases hk : k ∈ acc
  · rwa [if_pos hk]
  · rw [if_neg hk, List.nodup_append]
    exact ⟨h, List.nodup_singleton k, fun a ha hb => hk ((List.mem_singleton.mp hb) ▸ ha)⟩

theorem mem_foldl_insertKey (ks : List Str) (acc : List Str) (x : Str) :
    x ∈ ks.foldl insertKey acc ↔ x ∈ acc ∨ x ∈ ks := by
  induction ks generalizing acc with
  | nil => simp
  | cons k ks ih =>
    rw [List.foldl_cons, ih, mem_insertKey, List.mem_cons]
    tauto

theorem nodup_foldl_insertKey (ks : List Str) (acc : List Str) (h : acc.Nodup) :
    (ks.foldl insertKey acc).Nodup := by
  induction ks generalizing acc with
  | nil => exact h
  | cons k ks ih => exact ih _ (nodup_insertKey acc k h)

theorem mem_allFields (rows : List FlatRow) (x : Str) :
    x ∈ allFields rows ↔ ∃ r ∈ rows, x ∈ rowKeys r := by
  rw [allFields]
  have hgen : ∀ acc, x ∈ rows.foldl (fun acc r => (rowKeys r).foldl insertKey acc) acc ↔
      x ∈ acc ∨ ∃ r ∈ rows, x ∈ rowKeys r := by
    induction rows with
    | nil => intro acc; simp
    | cons r rows ih =>
      intro acc
      rw [List.foldl_cons, ih, mem_foldl_insertKey]
      constructor
      · rintro ((hx | hx) | ⟨r', hr', hx⟩)
        · exact Or.inl hx
        · exact Or.inr ⟨r, List.mem_cons_self _ _, hx⟩
        · exact Or.inr ⟨r', List.mem_cons_of_mem _ hr', hx⟩
      · rintro (hx | ⟨r', hr', hx⟩)
        · exact Or.inl (Or.inl hx)
        · rcases List.mem_cons.mp hr' with rfl | hr''
          · exact Or.inl (Or.inr hx)
          · exact Or.inr ⟨r', hr'', hx⟩
  rw [hgen []]
  simp

theorem nodup_allFields (rows : List FlatRow) : (allFields rows).Nodup := by
  rw [allFields]
  have hgen : ∀ acc : List Str, acc.Nodup →
      (rows.foldl (fun acc r => (rowKeys r).foldl insertKey acc) acc).Nodup := by
    induction rows with
    | nil => exact fun acc h => h
    | cons r rows ih => exact fun acc h => ih _ (nodup_foldl_insertKey _ _ h)
  exact hgen [] List.nodup_nil

/-- C5: for every non-empty list of FlatRows passed to export, the written
header line is the field-name list: a duplicate-free, lexicographically
sorted (on code points) enumeration of exactly the keys appearing in some
input row; every data row is the re-projection of its FlatRow onto that
header — exactly `len(header)` fields, with the empty string substituted
for every field absent in that particular row. -/
theorem C5_export_header (rows : List FlatRow) (hne : rows ≠ []) :
    csvText rows = encodeFile (fieldnames rows :: rows.map (projRow (fieldnames rows))) ∧
    (∀ k, k ∈ fieldnames rows ↔ ∃ r ∈ rows, k ∈ rowKeys r) ∧
    List.Sorted (fun a b => strLeB a b = true) (fieldnames rows) ∧
    (fieldnames rows).Nodup ∧
    (∀ r, (projRow (fieldnames rows) r).length = (fieldnames rows).length) ∧
    (∀ (r : FlatRow) (k : Str), alookup k r = Option.none →
      fieldText (dget r k (.str [])) = []) := by
  refine ⟨rfl, ?_, ?_, ?_, ?_, ?_⟩
  · intro k
    rw [fieldnames, (List.perm_insertionSort _ _).mem_iff]
    exact mem_allFields rows k
  · exact List.sorted_insertionSort _ _
  · rw [fieldnames]
    exact ((List.perm_insertionSort _ (allFields rows)).symm).nodup (nodup_allFields rows)
  · intro r
    rw [projRow, List.length_map]
  · intro r k hk
    rw [dget, hk]
    rfl

/-- C5, witness: the header theorem at a concrete two-row list. -/
theorem C5_witness :
    csvText wRows = encodeFile (fieldnames wRows :: wRows.map (projRow (fieldnames wRows))) ∧
    (∀ k, k ∈ fieldnames wRows ↔ ∃ r ∈ wRows, k ∈ rowKeys r) ∧
    List.Sorted (fun a b => strLeB a b = true) (fieldnames wRows) ∧
    (fieldnames wRows).Nodup ∧
    (∀ r, (projRow (fieldnames wRows) r).length = (fieldnames wRows).length) ∧
    (∀ (r : FlatRow) (k : Str), alookup k r = Option.none →
      fieldText (dget r k (.str [])) = []) :=
  C5_export_header wRows (List.cons_ne_nil _ _)

/-! ## CSV round-trip (C6): field-level inversions. -/

theorem scanUnquoted_inv (f rest : Str)
    (hf : ∀ c ∈ f, ¬(c = ',' ∨ c = '\r' ∨ c = '\n'))
    (hrest : rest = [] ∨ ∃ c cs, rest = c :: cs ∧ (c = ',' ∨ c = '\r' ∨ c = '\n')) :
    scanUnquoted (f ++ rest) = (f, rest) := by
  induction f with
  | nil =>
    rcases hrest with rfl | ⟨c, cs, rfl, hc⟩
    · rfl
    · rw [List.nil_append, scanUnquoted, if_pos hc]
  | cons a f ih =>
    rw [List.cons_append, scanUnquoted,
      if_neg (hf a (List.mem_cons_self a f)),
      ih (fun c hc => hf c (List.mem_cons_of_mem _ hc))]

theorem scanQuoted_qq (x : Str) :
    scanQuoted ('"' :: '"' :: x) = ('"' :: (scanQuoted x).1, (scanQuoted x).2) := rfl

theorem scanQuoted_q_nil : scanQuoted ['"'] = ([], []) := rfl

theorem scanQuoted_q_other (c : Char) (x : Str) (h : ¬(c = '"')) :
    scanQuoted ('"' :: c :: x) = ([], c :: x) := by
  rw [scanQuoted.eq_def]
  simp only [if_pos rfl, if_neg h, if_true]

theorem scanQuoted_other (c : Char) (x : Str) (h : ¬(c = '"')) :
    scanQuoted (c :: x) = (c :: (scanQuoted x).1, (scanQuoted x).2) := by
  rw [scanQuoted.eq_def]
  simp only [if_neg h]

theorem scanQuoted_inv (f rest : Str)
    (hrest : ∀ c cs, rest = c :: cs → ¬(c = '"')) :
    scanQuoted (escapeQuotes f ++ '"' :: rest) = (f, rest) := by
  induction f with
  | nil =>
    rw [escapeQuotes, List.nil_append]
    cases rest with
    | nil => exact scanQuoted_q_nil
    | cons c2 cs => exact scanQuoted_q_other c2 cs (hrest c2 cs rfl)
  | cons a f ih =>
    rw [escapeQuotes]
    by_cases ha : a = '"'
    · rw [if_pos ha, List.cons_append, List.cons_append, scanQuoted_qq, ih, ha]
    · rw [if_neg ha, List.cons_append, scanQuoted_other a _ ha, ih]

theorem needsQuote_false_chars (f : Str) (h : needsQuote f = false) :
    ∀ c ∈ f, ¬(c = ',') ∧ ¬(c = '"') ∧ ¬(c = '\r') ∧ ¬(c = '\n') := by
  intro c hc
  rw [needsQuote] at h
  have h2 : (c = ',' || c = '"' || c = '\r' || c = '\n') = false := by
    cases hb : (c = ',' || c = '"' || c = '\r' || c = '\n') with
    | false => rfl
    | true =>
      rw [List.any_eq_false] at h
      exact absurd hb (h c hc)
  simp only [Bool.or_eq_false_iff, decide_eq_false_iff_not] at h2
  exact ⟨h2.1.1.1, h2.1.1.2, h2.1.2, h2.2⟩

theorem parseField_eq_scanUnquoted (x : Str)
    (h : ∀ c cs, x = c :: cs → ¬(c = '"')) : parseField x = scanUnquoted x := by
  cases x with
  | nil => rfl
  | cons c cs => rw [parseField, if_neg (h c cs rfl)]

theorem parseField_inv (f rest : Str)
    (hrest : rest = [] ∨ ∃ c cs, rest = c :: cs ∧ (c = ',' ∨ c = '\r')) :
    parseField (encodeField f ++ rest) = (f, rest) := by
  have hrest2 : rest = [] ∨ ∃ c cs, rest = c :: cs ∧ (c = ',' ∨ c = '\r' ∨ c = '\n') := by
    rcases hrest with rfl | ⟨c, cs, rfl, hc⟩
    · exact Or.inl rfl
    · exact Or.inr ⟨c, cs, rfl, hc.elim Or.inl (fun h2 => Or.inr (Or.inl h2))⟩
  rw [encodeField]
  by_cases hq : needsQuote f = true
  · rw [if_pos hq]
    have hsh : ('"' :: escapeQuotes f ++ ['"']) ++ rest =
        '"' :: (escapeQuotes f ++ '"' :: rest) := by
      simp [List.cons_append, List.append_assoc]
    rw [hsh, parseField, if_pos rfl]
    refine scanQuoted_inv f rest ?_
    intro c cs hrc hcq
    rcases hrest with rfl | ⟨c', cs', he, hc'⟩
    · exact List.noConfusion hrc
    · rw [he] at hrc
      injection hrc with h1 _
      rcases hc' with rfl | rfl
      · exact absurd (h1.trans hcq) (by decide)
      · exact absurd (h1.trans hcq) (by decide)
  · rw [if_neg hq]
    have hchars := needsQuote_false_chars f (Bool.not_eq_true _ ▸ hq)
    rw [parseField_eq_scanUnquoted]
    · refine scanUnquoted_inv f rest ?_ hrest2
      intro c hc hor
      rcases hor with rfl | rfl | rfl
      · exact (hchars _ hc).1 rfl
      · exact (hchars _ hc).2.2.1 rfl
      · exact (hchars _ hc).2.2.2 rfl
    · intro c cs he hcq
      cases f with
      | nil =>
        rw [List.nil_append] at he
        rcases hrest2 with rfl | ⟨c', cs', he', hc'⟩
        · exact List.noConfusion he
        · rw [he'] at he
          injection he with h1 _
          rw [h1, hcq] at hc'
          rcases hc' with h2 | h2 | h2 <;> exact absurd h2 (by decide)
      | cons a f' =>
        rw [List.cons_append] at he
        injection he with h1 _
        exact (hchars a (List.mem_cons_self _ _)).2.1 (h1 ▸ hcq)

/-! ## CSV round-trip (C6): record- and file-level inversions. -/

theorem encodeLineRaw_one (f : Str) : encodeLineRaw [f] = encodeField f := rfl

theorem encodeLineRaw_cons₂ (f g : Str) (gs : List Str) :
    encodeLineRaw (f :: g :: gs) = encodeField f ++ ',' :: encodeLineRaw (g :: gs) := rfl

theorem parseRecordF_step (fl : Nat) (l : Str) :
    parseRecordF (fl + 1) l =
      (let p := parseField l
       match p.2 with
       | [] => ([p.1], [])
       | c :: cs =>
         if c = ',' then
           let q := parseRecordF fl cs
           (p.1 :: q.1, q.2)
         else if c = '\r' then
           if cs.head? = some '\n' then ([p.1], cs.tail) else ([p.1], cs)
         else ([p.1], cs)) := rfl

theorem parseRecordF_inv : ∀ (fs : List Str) (fl : Nat) (rest : Str),
    fs ≠ [] → fs.length ≤ fl →
    parseRecordF fl (encodeLineRaw fs ++ '\r' :: '\n' :: rest) = (fs, rest) := by
  intro fs
  induction fs with
  | nil => intro fl rest h _; exact absurd rfl h
  | cons f fs ih =>
    intro fl rest _ hlen
    cases fs with
    | nil =>
      cases fl with
      | zero => simp at hlen
      | succ fl =>
        rw [encodeLineRaw_one, parseRecordF_step,
          parseField_inv f ('\r' :: '\n' :: rest) (Or.inr ⟨'\r', '\n' :: rest, rfl, Or.inr rfl⟩)]
        rfl
    | cons g gs =>
      cases fl with
      | zero => simp at hlen
      | succ fl =>
        rw [encodeLineRaw_cons₂]
        have hsh : (encodeField f ++ ',' :: encodeLineRaw (g :: gs)) ++ '\r' :: '\n' :: rest =
            encodeField f ++ ',' :: (encodeLineRaw (g :: gs) ++ '\r' :: '\n' :: rest) := by
          simp [List.append_assoc]
        rw [hsh, parseRecordF_step,
          parseField_inv f (',' :: (encodeLineRaw (g :: gs) ++ '\r' :: '\n' :: rest))
            (Or.inr ⟨',', _, rfl, Or.inl rfl⟩)]
        show (f :: (parseRecordF fl (encodeLineRaw (g :: gs) ++ '\r' :: '\n' :: rest)).1,
          (parseRecordF fl (encodeLineRaw (g :: gs) ++ '\r' :: '\n' :: rest)).2) = (f :: g :: gs, rest)
        rw [ih fl rest (List.cons_ne_nil _ _) (by simp at hlen ⊢; omega)]

theorem parseRecordF_quotquot (fl : Nat) (rest : Str) (h : 1 ≤ fl) :
    parseRecordF fl (['"', '"'] ++ '\r' :: '\n' :: rest) = ([[]], rest) := by
  cases fl with
  | zero => omega
  | succ fl => rfl

theorem parseFileF_step (fl : Nat) (l : Str) :
    parseFileF (fl + 1) l =
      (match l with
       | [] => []
       | c :: cs =>
         if c = '\r' ∧ cs.head? = some '\n' then [] :: parseFileF fl cs.tail
         else
           let q := parseRecordF (c :: cs).length (c :: cs)
           q.1 :: parseFileF fl q.2) := rfl

theorem encodeField_eq_nil (f : Str) (h : encodeField f = []) : f = [] := by
  rw [encodeField] at h
  by_cases hq : needsQuote f = true
  · rw [if_pos hq] at h
    exact absurd h (List.cons_ne_nil _ _)
  · rwa [if_neg hq] at h

theorem encodeField_shape (f : Str) :
    encodeField f = [] ∨ ∃ c t, encodeField f = c :: t ∧ ¬(c = '\r') ∧ ¬(c = '\n') := by
  rw [encodeField]
  by_cases hq : needsQuote f = true
  · rw [if_pos hq]
    exact Or.inr ⟨'"', escapeQuotes f ++ ['"'], rfl, by decide, by decide⟩
  · rw [if_neg hq]
    cases f with
    | nil => exact Or.inl rfl
    | cons a t =>
      have hchars := needsQuote_false_chars _ (Bool.not_eq_true _ ▸ hq) a (List.mem_cons_self _ _)
      exact Or.inr ⟨a, t, rfl, hchars.2.2.1, hchars.2.2.2⟩

theorem encodeLine_head (fs : List Str) (h : fs ≠ []) :
    ∃ c t, encodeLine fs = c :: t ∧ ¬(c = '\r') := by
  rw [encodeLine]
  by_cases hq : fs = [[]]
  · rw [if_pos hq]
    exact ⟨'"', ['"'], rfl, by decide⟩
  · rw [if_neg hq]
    cases fs with
    | nil => exact absurd rfl h
    | cons f fs' =>
      cases fs' with
      | nil =>
        have hf : f ≠ [] := fun he => hq (by rw [he])
        rw [encodeLineRaw_one]
        rcases encodeField_shape f with hfe | ⟨c, t, he, hc1, _⟩
        · exact absurd (encodeField_eq_nil f hfe) hf
        · exact ⟨c, t, he, hc1⟩
      | cons g gs =>
        rw [encodeLineRaw_cons₂]
        rcases encodeField_shape f with hfe | ⟨c, t, he, hc1, _⟩
        · rw [hfe, List.nil_append]
          exact ⟨',', _, rfl, by decide⟩
        · rw [he, List.cons_append]
          exact ⟨c, _, rfl, hc1⟩

theorem encodeLineRaw_len (fs : List Str) (h : fs ≠ []) :
    fs.length ≤ (encodeLineRaw fs).length + 1 := by
  induction fs with
  | nil => exact absurd rfl h
  | cons f fs ih =>
    cases fs with
    | nil => simp [encodeLineRaw_one]
    | cons g gs =>
      have := ih (List.cons_ne_nil _ _)
      rw [encodeLineRaw_cons₂]
      simp only [List.length_append, List.length_cons] at this ⊢
      omega

theorem parseFileF_encodeFile : ∀ (ls : List (List Str)) (fl : Nat), ls.length < fl →
    parseFileF fl (encodeFile ls) = ls := by
  intro ls
  induction ls with
  | nil =>
    intro fl h
    cases fl with
    | zero => omega
    | succ fl => rfl
  | cons l ls ih =>
    intro fl h
    rw [List.length_cons] at h
    cases fl with
    | zero => omega
    | succ fl =>
      rw [encodeFile]
      by_cases hl : l = []
      · subst hl
        rw [show encodeLine [] = [] from rfl, List.nil_append, parseFileF_step]
        show [] :: parseFileF fl (encodeFile ls) = [] :: ls
        rw [ih fl (by omega)]
      · obtain ⟨c, t, he, hc⟩ := encodeLine_head l hl
        rw [he, List.cons_append, parseFileF_step]
        show (if c = '\r' ∧ ((t ++ '\r' :: '\n' :: encodeFile ls).head? = some '\n') then
            [] :: parseFileF fl ((t ++ '\r' :: '\n' :: encodeFile ls).tail)
          else
            (parseRecordF (c :: (t ++ '\r' :: '\n' :: encodeFile ls)).length
                (c :: (t ++ '\r' :: '\n' :: encodeFile ls))).1 ::
              parseFileF fl (parseRecordF (c :: (t ++ '\r' :: '\n' :: encodeFile ls)).length
                (c :: (t ++ '\r' :: '\n' :: encodeFile ls))).2) = l :: ls
        rw [if_neg (fun hand => hc hand.1), ← List.cons_append, ← he]
        by_cases hqq : l = [[]]
        · subst hqq
          rw [show encodeLine [[]] = ['"', '"'] from rfl]
          rw [parseRecordF_quotquot _ (encodeFile ls) (by simp)]
          show [[]] :: parseFileF fl (encodeFile ls) = [[]] :: ls
          rw [ih fl (by omega)]
        · have hraw : encodeLine l = encodeLineRaw l := by rw [encodeLine, if_neg hqq]
          rw [hraw]
          have hbound : l.length ≤ (encodeLineRaw l ++ '\r' :: '\n' :: encodeFile ls).length := by
            have := encodeLineRaw_len l hl
            simp only [List.length_append, List.length_cons]
            omega
          rw [parseRecordF_inv l _ (encodeFile ls) hl hbound]
          show l :: parseFileF fl (encodeFile ls) = l :: ls
          rw [ih fl (by omega)]

theorem getElem?_idxOf (k : Str) (l : List Str) (h : k ∈ l) : l[idxOf k l]? = some k := by
  induction l with
  | nil => exact absurd h (List.not_mem_nil k)
  | cons x xs ih =>
    rw [idxOf]
    by_cases hx : x = k
    · rw [if_pos hx, List.getElem?_cons_zero, hx]
    · rw [if_neg hx, List.getElem?_cons_succ]
      refine ih ?_
      rcases List.mem_cons.mp h with rfl | hmem
      · exact absurd rfl hx
      · exact hmem

theorem encodeFile_len (ls : List (List Str)) : ls.length ≤ (encodeFile ls).length := by
  induction ls with
  | nil => exact Nat.le_refl 0
  | cons l ls ih =>
    rw [encodeFile]
    simp only [List.length_append, List.length_cons]
    omega

/-- C6: round-trip — for every list of FlatRows, parsing the CSV text
produced by the export yields, for each original row and each header
field, the original value coerced to its written text when the field was
present in that row, and the empty string when it was absent. -/
theorem C6_roundtrip (rows : List FlatRow) (i : Nat) (k : Str)
    (hi : i < rows.length) (hk : k ∈ fieldnames rows) :
    ((parseCsv (csvText rows)).getD (i + 1) []).getD (idxOf k (fieldnames rows)) [] =
      (match alookup k (rows.getD i []) with
       | some v => fieldText v
       | Option.none => []) := by
  have hparse : parseCsv (csvText rows) =
      fieldnames rows :: rows.map (projRow (fieldnames rows)) := by
    rw [csvText, parseCsv]
    refine parseFileF_encodeFile _ _ ?_
    have hlen := encodeFile_len (fieldnames rows :: rows.map (projRow (fieldnames rows)))
    omega
  rw [hparse]
  have hrow : rows[i]? = some rows[i] := List.getElem?_eq_getElem hi
  have hrec : (fieldnames rows :: rows.map (projRow (fieldnames rows))).getD (i + 1) [] =
      projRow (fieldnames rows) rows[i] := by
    rw [List.getD_eq_getElem?_getD, List.getElem?_cons_succ, List.getElem?_map, hrow]
    rfl
  rw [hrec]
  rw [projRow, List.getD_eq_getElem?_getD, List.getElem?_map, getElem?_idxOf k _ hk]
  simp only [Option.map_some', Option.getD_some]
  rw [dget]
  have hgd : rows.getD i [] = rows[i] := by
    rw [List.getD_eq_getElem?_getD, hrow]
    rfl
  rw [hgd]
  cases halk : alookup k rows[i] with
  | none => rfl
  | some v => rfl

/-- C6, witness: the round-trip theorem at a concrete two-row list and
the field `a` of its header (present in row 0 as the number 3). -/
theorem C6_witness :
    ((parseCsv (csvText wRows)).getD 1 []).getD (idxOf "a".data (fieldnames wRows)) [] =
      (match alookup "a".data (wRows.getD 0 []) with
       | some v => fieldText v
       | Option.none => []) :=
  C6_roundtrip wRows 0 "a".data (by decide) (by decide)
